import Mathlib

/-!
# nodebuilder/share/service.go

A shallow embedding of the share module wiring of celestia-node
(`nodebuilder/share/service.go`): the `Module` capability set, the `module`
struct that embeds an `Availability` and a `ShareService`, the constructors
`newModule`, `NewShareService` and `NewModule`, and the RPC-facing `API` struct.
The Share Service and the Availability Sampler behind the two embedded
interfaces are implemented in other packages; they are modelled from the design
document, and the statements about them are statements about the Module built
over that model.

Go calls that have effects are functions on an explicit world state `W`; a call
either returns or aborts with a run-time panic (`Outcome`).  An interface value
is either nil or a table of methods; calling a method of a nil interface value
panics.
-/

namespace NodebuilderShare

/-! ## Values that cross the boundary of the file -/

/-- Go `context.Context`, as far as callers can observe it: an optional deadline and
the cancellation flag. -/
structure Context where
  deadline : Option Nat
  cancelled : Bool
  deriving DecidableEq, Repr

/-- Go `namespace.ID`: a byte string. -/
abbrev NamespaceID := List Nat

/-- Go `share.Share`: a byte string. -/
abbrev Share := List Nat

/-- A row or column commitment of a data square: the smallest and largest namespace
identifier below it, and its digest. -/
structure Commitment where
  min : NamespaceID
  max : NamespaceID
  digest : List Nat
  deriving DecidableEq, Repr

/-- Go `share.Root`: the ordered row roots and the ordered column roots of one data
square. -/
structure Root where
  rowRoots : List Commitment
  colRoots : List Commitment
  deriving DecidableEq, Repr

/-- The error conditions named by the design, and any other error value. -/
inductive Err where
  | notFound
  | timeout
  | verificationFailed
  | cancelled
  | shareUnavailable
  | other (msg : String)
  deriving DecidableEq, Repr

/-- Go `error`: nil (`none`) or an error value. -/
abbrev error := Option Err

/-- Go `float64`: an IEEE 754 binary64 value, by its sign bit, its 11 exponent bits and
its 52 fraction bits. -/
structure Float64 where
  sign : Bool
  exponent : Fin 2048
  fraction : Fin 4503599627370496
  deriving DecidableEq, Repr

/-- The float64 with the given sign, exponent field and fraction field. -/
def Float64.pack (s : Bool) (e f : Nat) : Float64 :=
  { sign := s
    exponent := ⟨e % 2048, Nat.mod_lt _ (by decide)⟩
    fraction := ⟨f % 4503599627370496, Nat.mod_lt _ (by decide)⟩ }

/-- The rational number a finite float64 denotes; none for the infinities and NaN. -/
def Float64.toRat? (x : Float64) : Option ℚ :=
  if x.exponent.val = 2047 then none
  else if x.exponent.val = 0 then
    some ((if x.sign then -1 else 1) * ((x.fraction.val * 2 : Nat) : ℚ) / 2 ^ 1075)
  else
    some ((if x.sign then -1 else 1) *
      (((4503599627370496 + x.fraction.val) * 2 ^ x.exponent.val : Nat) : ℚ) / 2 ^ 1075)

/-- Rounding of the quotient `n / d` to an integer: to nearest, ties to even. -/
def roundHalfEven (n d : Nat) : Nat :=
  if 2 * (n % d) < d then n / d
  else if d < 2 * (n % d) then n / d + 1
  else if (n / d) % 2 = 0 then n / d
  else n / d + 1

/-- The binary exponent of a positive quotient: the `e` with `2^e ≤ n / d < 2^(e+1)`. -/
def binaryExponent (n d : Nat) : Int :=
  let e0 : Int := (Nat.log2 n : Int) - (Nat.log2 d : Int)
  if d * 2 ^ e0.toNat ≤ n * 2 ^ (-e0).toNat then e0 else e0 - 1

/-- The float64 nearest to the quotient `n / d` of two natural numbers (IEEE 754 round
to nearest, ties to even; overflow gives +Inf, `0 / 0` is NaN). -/
def Float64.ofRatio (n d : Nat) : Float64 :=
  if d = 0 then (if n = 0 then Float64.pack false 2047 1 else Float64.pack false 2047 0)
  else if n = 0 then Float64.pack false 0 0
  else
    let e : Int := max (binaryExponent n d) (-1022)
    let m : Nat := roundHalfEven (n * 2 ^ (52 - e).toNat) (d * 2 ^ (e - 52).toNat)
    let e1 : Int := if m = 2 ^ 53 then e + 1 else e
    let m1 : Nat := if m = 2 ^ 53 then 2 ^ 52 else m
    if m1 < 2 ^ 52 then Float64.pack false 0 m1
    else if 1023 < e1 then Float64.pack false 2047 0
    else Float64.pack false (e1 + 1023).toNat (m1 - 2 ^ 52)

/-- Go `node.Type`, a `uint8`. -/
abbrev NodeType := Fin 256

/-- Go `blockservice.BlockService`, an external handle that is only passed on. -/
structure BlockService where
  handle : Nat
  deriving DecidableEq, Repr

/-! ## Effects -/

/-- How a Go call ends: with a run-time panic, or by returning a value. -/
inductive Outcome (α : Type) where
  | panic : Outcome α
  | ret (a : α) : Outcome α
  deriving DecidableEq, Repr

/-- A Go call with effects on the world `W`. -/
abbrev Call (W α : Type) := W → Outcome α × W

/-- Dynamic dispatch on an interface value: a nil interface value panics, otherwise
the method of the value it holds runs. -/
def invoke {I W α : Type} (i : Option I) (f : I → Call W α) : Call W α :=
  fun w =>
    match i with
    | none => (Outcome.panic, w)
    | some x => f x w

/-! ## The two embedded interfaces -/

/-- Modelled from the spec: the interface `share.Availability`, which is declared in
package `share` and not in `nodebuilder/share/service.go`; the Availability
Sampler answers `SharesAvailable` and `ProbabilityOfAvailability`, with the
signatures `Module` gives them. -/
structure AvailabilityImpl (W : Type) where
  SharesAvailable : Context → Option Root → Call W error
  ProbabilityOfAvailability : Call W Float64

/-- An interface value of type `share.Availability`: nil or a method table. -/
abbrev Availability (W : Type) := Option (AvailabilityImpl W)

/-- Modelled from the spec: the interface `service.ShareService`, which is declared in
package `share/service` and not in `nodebuilder/share/service.go`; the Share
Service answers `GetShare`, `GetShares` and `GetSharesByNamespace`, with the
signatures `Module` gives them, and `Start` and `Stop`, which `NewShareService`
calls with a context and which return an error. -/
structure ShareServiceImpl (W : Type) where
  GetShare : Context → Option Root → Int → Int → Call W (Share × error)
  GetShares : Context → Option Root → Call W (List (List Share) × error)
  GetSharesByNamespace : Context → Option Root → NamespaceID → Call W (List Share × error)
  Start : Context → Call W error
  Stop : Context → Call W error

/-- An interface value of type `service.ShareService`: nil or a method table. -/
abbrev ShareService (W : Type) := Option (ShareServiceImpl W)

/-- The call `a.SharesAvailable(ctx, root)` on an interface value. -/
def Availability.SharesAvailable {W : Type} (a : Availability W) (ctx : Context)
    (root : Option Root) : Call W error :=
  invoke a (fun i => i.SharesAvailable ctx root)

/-- The call `a.ProbabilityOfAvailability()` on an interface value. -/
def Availability.ProbabilityOfAvailability {W : Type} (a : Availability W) :
    Call W Float64 :=
  invoke a (fun i => i.ProbabilityOfAvailability)

/-- The call `s.GetShare(ctx, dah, row, col)` on an interface value. -/
def ShareService.GetShare {W : Type} (s : ShareService W) (ctx : Context)
    (dah : Option Root) (row col : Int) : Call W (Share × error) :=
  invoke s (fun i => i.GetShare ctx dah row col)

/-- The call `s.GetShares(ctx, root)` on an interface value. -/
def ShareService.GetShares {W : Type} (s : ShareService W) (ctx : Context)
    (root : Option Root) : Call W (List (List Share) × error) :=
  invoke s (fun i => i.GetShares ctx root)

/-- The call `s.GetSharesByNamespace(ctx, root, namespace)` on an interface value. -/
def ShareService.GetSharesByNamespace {W : Type} (s : ShareService W) (ctx : Context)
    (root : Option Root) (nID : NamespaceID) : Call W (List Share × error) :=
  invoke s (fun i => i.GetSharesByNamespace ctx root nID)

/-- The call `s.Start(ctx)` on an interface value. -/
def ShareService.Start {W : Type} (s : ShareService W) (ctx : Context) : Call W error :=
  invoke s (fun i => i.Start ctx)

/-- The call `s.Stop(ctx)` on an interface value. -/
def ShareService.Stop {W : Type} (s : ShareService W) (ctx : Context) : Call W error :=
  invoke s (fun i => i.Stop ctx)

/-! ## Module, module, newModule -/

/-- The interface `Module`: the five methods a caller of the share module can use. -/
structure Module (W : Type) where
  SharesAvailable : Context → Option Root → Call W error
  ProbabilityOfAvailability : Call W Float64
  GetShare : Context → Option Root → Int → Int → Call W (Share × error)
  GetShares : Context → Option Root → Call W (List (List Share) × error)
  GetSharesByNamespace : Context → Option Root → NamespaceID → Call W (List Share × error)

/-- The struct `module`: it embeds a `share.Availability` and a
`service.ShareService`. -/
structure module (W : Type) where
  Availability : NodebuilderShare.Availability W
  ShareService : NodebuilderShare.ShareService W

/-- Promoted method: `m.SharesAvailable` is `m.Availability.SharesAvailable`. -/
def module.SharesAvailable {W : Type} (m : module W) (ctx : Context)
    (root : Option Root) : Call W error :=
  Availability.SharesAvailable m.Availability ctx root

/-- Promoted method: `m.ProbabilityOfAvailability` is
`m.Availability.ProbabilityOfAvailability`. -/
def module.ProbabilityOfAvailability {W : Type} (m : module W) : Call W Float64 :=
  Availability.ProbabilityOfAvailability m.Availability

/-- Promoted method: `m.GetShare` is `m.ShareService.GetShare`. -/
def module.GetShare {W : Type} (m : module W) (ctx : Context) (dah : Option Root)
    (row col : Int) : Call W (Share × error) :=
  ShareService.GetShare m.ShareService ctx dah row col

/-- Promoted method: `m.GetShares` is `m.ShareService.GetShares`. -/
def module.GetShares {W : Type} (m : module W) (ctx : Context) (root : Option Root) :
    Call W (List (List Share) × error) :=
  ShareService.GetShares m.ShareService ctx root

/-- Promoted method: `m.GetSharesByNamespace` is
`m.ShareService.GetSharesByNamespace`. -/
def module.GetSharesByNamespace {W : Type} (m : module W) (ctx : Context)
    (root : Option Root) (nID : NamespaceID) : Call W (List Share × error) :=
  ShareService.GetSharesByNamespace m.ShareService ctx root nID

/-- The conversion of a `*module` to the interface `Module`: its method set. -/
def module.asModule {W : Type} (m : module W) : Module W where
  SharesAvailable := m.SharesAvailable
  ProbabilityOfAvailability := m.ProbabilityOfAvailability
  GetShare := m.GetShare
  GetShares := m.GetShares
  GetSharesByNamespace := m.GetSharesByNamespace

/-- The function `newModule`. -/
def newModule {W : Type} (shrSrv : ShareService W) (avail : Availability W) : Module W :=
  module.asModule { Availability := avail, ShareService := shrSrv }

/-! ## Lifecycle, NewShareService, NewModule -/

/-- Go `fx.Hook`: a pair of callbacks, each of which may be nil. -/
structure Hook (W : Type) where
  OnStart : Option (Context → Call W error)
  OnStop : Option (Context → Call W error)

/-- Go `fx.Lifecycle`, by its state: the hooks registered so far, in order. -/
abbrev Lifecycle (W : Type) := List (Hook W)

/-- Go `lc.Append(hook)`: the hook is added after the ones already registered. -/
def Lifecycle.Append {W : Type} (lc : Lifecycle W) (h : Hook W) : Lifecycle W :=
  lc ++ [h]

/-- The function `NewShareService`.  The constructor `service.NewShareService` of the
Share Service belongs to package `share/service` and is the parameter `mk`; the
result is the service together with the lifecycle after the call. -/
def NewShareService {W : Type} (mk : BlockService → W → ShareService W × W)
    (lc : Lifecycle W) (bServ : BlockService) : W → (ShareService W × Lifecycle W) × W :=
  fun w =>
    let r := mk bServ w
    let serv := r.1
    ((serv, Lifecycle.Append lc
        { OnStart := some (fun ctx => ShareService.Start serv ctx)
          OnStop := some (fun ctx => ShareService.Stop serv ctx) }), r.2)

/-- The function `NewModule`; the result is the module together with the lifecycle
after the call. -/
def NewModule {W : Type} (lc : Lifecycle W) (_tp : NodeType) (shrSrv : ShareService W)
    (availability : Availability W) : Module W × Lifecycle W :=
  (newModule shrSrv availability, lc)

/-! ## The API struct -/

/-- The struct `API`: one function-typed field per method of `Module`; a field of a
struct value may be nil. -/
structure API (W : Type) where
  SharesAvailable : Option (Context → Option Root → Call W error)
  ProbabilityOfAvailability : Option (Call W Float64)
  GetShare : Option (Context → Option Root → Int → Int → Call W (Share × error))
  GetShares : Option (Context → Option Root → Call W (List (List Share) × error))
  GetSharesByNamespace :
    Option (Context → Option Root → NamespaceID → Call W (List Share × error))

/-- Taking the methods of a `Module` as the fields of an `API`
(`API{SharesAvailable: m.SharesAvailable, ...}`). -/
def Module.toAPI {W : Type} (m : Module W) : API W where
  SharesAvailable := some m.SharesAvailable
  ProbabilityOfAvailability := some m.ProbabilityOfAvailability
  GetShare := some m.GetShare
  GetShares := some m.GetShares
  GetSharesByNamespace := some m.GetSharesByNamespace

/-- An `API` is fully populated when none of its fields is nil. -/
def API.populated {W : Type} (api : API W) : Bool :=
  api.SharesAvailable.isSome && api.ProbabilityOfAvailability.isSome &&
    api.GetShare.isSome && api.GetShares.isSome && api.GetSharesByNamespace.isSome

/-- Turning an `API` back into a `Module`: each method is the field of the same name;
there is no such `Module` when a field is nil. -/
def API.toModule {W : Type} (api : API W) : Option (Module W) :=
  match api.SharesAvailable, api.ProbabilityOfAvailability, api.GetShare, api.GetShares,
    api.GetSharesByNamespace with
  | some f1, some f2, some f3, some f4, some f5 =>
      some
        { SharesAvailable := f1
          ProbabilityOfAvailability := f2
          GetShare := f3
          GetShares := f4
          GetSharesByNamespace := f5 }
  | _, _, _, _, _ => none

/-! ## Observing calls and failures -/

/-- The methods of the two delegates. -/
inductive Method where
  | SharesAvailable
  | ProbabilityOfAvailability
  | GetShare
  | GetShares
  | GetSharesByNamespace
  | Start
  | Stop
  deriving DecidableEq, Repr

/-- A call that also writes its name at the end of a call log kept beside the world. -/
def logged {W α : Type} (name : Method) (f : Call W α) : Call (W × List Method) α :=
  fun wl => ((f wl.1).1, ((f wl.1).2, wl.2 ++ [name]))

/-- An Availability whose every method logs its invocation. -/
def AvailabilityImpl.logged {W : Type} (a : AvailabilityImpl W) :
    AvailabilityImpl (W × List Method) where
  SharesAvailable := fun ctx root =>
    NodebuilderShare.logged Method.SharesAvailable (a.SharesAvailable ctx root)
  ProbabilityOfAvailability :=
    NodebuilderShare.logged Method.ProbabilityOfAvailability a.ProbabilityOfAvailability

/-- A Share Service whose every method logs its invocation. -/
def ShareServiceImpl.logged {W : Type} (s : ShareServiceImpl W) :
    ShareServiceImpl (W × List Method) where
  GetShare := fun ctx dah row col =>
    NodebuilderShare.logged Method.GetShare (s.GetShare ctx dah row col)
  GetShares := fun ctx root => NodebuilderShare.logged Method.GetShares (s.GetShares ctx root)
  GetSharesByNamespace := fun ctx root nID =>
    NodebuilderShare.logged Method.GetSharesByNamespace (s.GetSharesByNamespace ctx root nID)
  Start := fun ctx => NodebuilderShare.logged Method.Start (s.Start ctx)
  Stop := fun ctx => NodebuilderShare.logged Method.Stop (s.Stop ctx)

/-- A constructor of Share Services that leaves the call log alone and whose service
logs every invocation. -/
def loggedConstructor {W : Type} (mk : BlockService → W → ShareServiceImpl W × W) :
    BlockService → W × List Method → ShareService (W × List Method) × (W × List Method) :=
  fun b wl => (some (mk b wl.1).1.logged, ((mk b wl.1).2, wl.2))

/-- How a call failed. -/
inductive Failure where
  | panicked
  | failed (e : Err)
  deriving DecidableEq, Repr

/-- The failure of a call that returns an `error`; `none` when it succeeded. -/
def failureOfError : Outcome error → Option Failure
  | Outcome.panic => some Failure.panicked
  | Outcome.ret none => none
  | Outcome.ret (some e) => some (Failure.failed e)

/-- The failure of a call that returns a value and an `error`; `none` when it
succeeded. -/
def failureOfPair {α : Type} : Outcome (α × error) → Option Failure
  | Outcome.panic => some Failure.panicked
  | Outcome.ret (_, none) => none
  | Outcome.ret (_, some e) => some (Failure.failed e)

/-! ## The Share Service and the Availability Sampler of the design

The implementations behind `service.ShareService` and `share.Availability` are
described by the design document only.  They are modelled sequentially: the
design fixes the order of every result by coordinate, whatever the order in
which concurrent fetches complete. -/

/-- The storage and exchange identity of a Share: `(Root, row, col)`. -/
structure Key where
  root : Root
  row : Int
  col : Int
  deriving DecidableEq, Repr

/-- What the Share Service did with its collaborators, in order. -/
inductive Event where
  | storeGet (k : Key) (hit : Bool)
  | exchangeFetch (k : Key)
  | storePut (k : Key) (sh : Share) (accepted : Bool)
  deriving DecidableEq, Repr

/-- Modelled from the spec: the external collaborators and the policy parameters of the
Share Service and the Availability Sampler, which live outside
`nodebuilder/share/service.go`.  `fetch` is the Share Exchange (bytes or an error,
under the context of the caller), `verify` the commitment primitive,
`storeAccepts` tells whether a put into the Share Store succeeds (a store failure
is possible and is ignored by the Share Service), `namespaceSize` is the width of
the namespace prefix of a Share, `sampleCount` is the sample count `s`, `entropy`
is the source of randomness of the sampler, and `startResult` and `stopResult`
are what starting and stopping the service report. -/
structure Env where
  fetch : Context → Key → Except Err Share
  verify : Root → Int → Int → Share → Bool
  storeAccepts : Key → Share → Bool
  namespaceSize : Nat
  sampleCount : Nat
  entropy : Nat → Nat
  startResult : Context → error
  stopResult : Context → error

/-- Modelled from the spec: the mutable state behind the two subsystems, which is kept
outside `nodebuilder/share/service.go`: the content of the Share Store, the trace
of collaborator calls, the cumulative confirmed-sample counter of the sampler,
and the number of random numbers consumed so far. -/
structure World where
  store : List (Key × Share)
  trace : List Event
  samples : Nat
  drawn : Nat
  deriving DecidableEq, Repr

/-- A step of the Share Service: it fails with an error or yields a value, and leaves a
world behind either way. -/
abbrev Step (α : Type) := World → Except Err α × World

/-- Sequencing of steps: the first failure ends the sequence. -/
def Step.andThen {α β : Type} (m : Step α) (f : α → Step β) : Step β :=
  fun w =>
    match m w with
    | (Except.error e, w1) => (Except.error e, w1)
    | (Except.ok a, w1) => f a w1

/-- Modelled from the spec: `GetShare` of the Share Service (section 4.2, steps 1 to 4),
which is implemented in package `share/service`.  Look the key up in the Share
Store and return on a hit; on a miss ask the Share Exchange; a fetched Share that
verifies is put into the store, best-effort, and returned; any fetch failure is
`ShareUnavailable`. -/
def getShare (env : Env) (ctx : Context) (root : Root) (row col : Int) : Step Share :=
  fun w =>
    let k : Key := { root := root, row := row, col := col }
    match w.store.lookup k with
    | some sh => (Except.ok sh, { w with trace := w.trace ++ [Event.storeGet k true] })
    | none =>
      let w1 : World :=
        { w with trace := w.trace ++ [Event.storeGet k false, Event.exchangeFetch k] }
      match env.fetch ctx k with
      | Except.error _ => (Except.error Err.shareUnavailable, w1)
      | Except.ok sh =>
        if env.verify root row col sh then
          if env.storeAccepts k sh then
            (Except.ok sh,
              { w1 with
                store := (k, sh) :: w1.store
                trace := w1.trace ++ [Event.storePut k sh true] })
          else
            (Except.ok sh, { w1 with trace := w1.trace ++ [Event.storePut k sh false] })
        else (Except.error Err.shareUnavailable, w1)

/-- The Share that `GetShare` yields at a coordinate in a given world, if it resolves
there. -/
def resolvesAt (env : Env) (ctx : Context) (root : Root) (w : World)
    (rc : Nat × Nat) : Option Share :=
  match (getShare env ctx root (rc.1 : Int) (rc.2 : Int) w).1 with
  | Except.ok sh => some sh
  | Except.error _ => none

/-- The square size `N` of a Root: the number of its row roots. -/
def Root.size (root : Root) : Nat := root.rowRoots.length

/-- Modelled from the spec: the resolution of the Shares of one row at the given columns,
in the order of the columns, each through `getShare`. -/
def getRow (env : Env) (ctx : Context) (root : Root) (row : Nat) :
    List Nat → Step (List Share)
  | [] => fun w => (Except.ok [], w)
  | c :: cs =>
    Step.andThen (getShare env ctx root (row : Int) (c : Int)) fun sh =>
      Step.andThen (getRow env ctx root row cs) fun shs => fun w => (Except.ok (sh :: shs), w)

/-- Modelled from the spec: the rows of `GetShares`, resolved in row order; one
coordinate that fails fails the whole call. -/
def getRows (env : Env) (ctx : Context) (root : Root) :
    List Nat → Step (List (List Share))
  | [] => fun w => (Except.ok [], w)
  | r :: rs =>
    Step.andThen (getRow env ctx root r (List.range root.size)) fun shs =>
      Step.andThen (getRows env ctx root rs) fun more => fun w => (Except.ok (shs :: more), w)

/-- Modelled from the spec: `GetShares` of the Share Service, which is implemented in
package `share/service`: the `N` by `N` grid of a Root. -/
def getShares (env : Env) (ctx : Context) (root : Root) : Step (List (List Share)) :=
  getRows env ctx root (List.range root.size)

/-- The order of namespace identifiers: byte strings compared from the first byte. -/
def nsLe : NamespaceID → NamespaceID → Bool
  | [], _ => true
  | _ :: _, [] => false
  | a :: as, b :: bs => decide (a < b) || (decide (a = b) && nsLe as bs)

/-- Whether a namespace identifier falls inside the range `[min, max]` of a row
commitment. -/
def rowCovers (cm : Commitment) (nID : NamespaceID) : Bool :=
  nsLe cm.min nID && nsLe nID cm.max

/-- The namespace identifier of a Share: the prefix of its payload of the fixed
width. -/
def namespaceOf (env : Env) (sh : Share) : NamespaceID := sh.take env.namespaceSize

/-- Modelled from the spec: the row loop of `GetSharesByNamespace`, from row `row` on:
a row whose commitment range excludes the namespace is skipped without a fetch,
any other row is resolved and filtered to the Shares of the namespace, in column
order. -/
def namespaceRows (env : Env) (ctx : Context) (root : Root) (nID : NamespaceID) :
    Nat → List Commitment → Step (List Share)
  | _, [] => fun w => (Except.ok [], w)
  | row, cm :: rest =>
    if rowCovers cm nID then
      Step.andThen (getRow env ctx root row (List.range root.size)) fun shs =>
        Step.andThen (namespaceRows env ctx root nID (row + 1) rest) fun more => fun w =>
          (Except.ok (shs.filter (fun sh => decide (namespaceOf env sh = nID)) ++ more), w)
    else namespaceRows env ctx root nID (row + 1) rest

/-- Modelled from the spec: `GetSharesByNamespace` of the Share Service, which is
implemented in package `share/service`: the row commitments of the Root are
iterated in row order. -/
def getSharesByNamespace (env : Env) (ctx : Context) (root : Root) (nID : NamespaceID) :
    Step (List Share) :=
  namespaceRows env ctx root nID 0 root.rowRoots

/-- A Go result pair from a step: the value and a nil error, or the zero value and the
error. -/
def goResult {α : Type} (zero : α) (r : Except Err α × World) :
    Outcome (α × error) × World :=
  match r with
  | (Except.ok a, w) => (Outcome.ret (a, none), w)
  | (Except.error e, w) => (Outcome.ret (zero, some e), w)

/-- Modelled from the spec: the Share Service as a value of `service.ShareService`.  A nil
Root cannot be addressed and aborts the call; what `Start` and `Stop` return is
left to the environment. -/
def shareService (env : Env) : ShareServiceImpl World where
  GetShare := fun ctx dah row col w =>
    match dah with
    | none => (Outcome.panic, w)
    | some root => goResult [] (getShare env ctx root row col w)
  GetShares := fun ctx dah w =>
    match dah with
    | none => (Outcome.panic, w)
    | some root => goResult [] (getShares env ctx root w)
  GetSharesByNamespace := fun ctx dah nID w =>
    match dah with
    | none => (Outcome.panic, w)
    | some root => goResult [] (getSharesByNamespace env ctx root nID w)
  Start := fun ctx w => (Outcome.ret (env.startResult ctx), w)
  Stop := fun ctx w => (Outcome.ret (env.stopResult ctx), w)

/-- The coordinates of the full `N` by `N` grid, row by row. -/
def grid (n : Nat) : List (Nat × Nat) :=
  (List.range n).flatMap fun r => (List.range n).map fun c => (r, c)

/-- Modelled from the spec: the draw of `s` distinct coordinates from a pool, without
replacement: each pick takes the coordinate at a random index out of the pool. -/
def drawSample (entropy : Nat → Nat) : Nat → Nat → List (Nat × Nat) → List (Nat × Nat)
  | 0, _, _ => []
  | s + 1, pos, pool =>
    match pool.get? (entropy pos % pool.length) with
    | none => []
    | some c => c :: drawSample entropy s (pos + 1) (pool.eraseIdx (entropy pos % pool.length))

/-- The coordinates that `SharesAvailable` samples for a Root in a given world. -/
def sampleOf (env : Env) (root : Root) (w : World) : List (Nat × Nat) :=
  drawSample env.entropy env.sampleCount w.drawn (grid root.size)

/-- Modelled from the spec: the resolution of the sampled coordinates through the Share
Service.  Every sample is tried; each one that resolves adds one to the
cumulative confirmed-sample counter; the verdict is whether all resolved. -/
def sampleAll (env : Env) (ctx : Context) (root : Root) :
    List (Nat × Nat) → World → Bool × World
  | [], w => (true, w)
  | rc :: rest, w =>
    match getShare env ctx root (rc.1 : Int) (rc.2 : Int) w with
    | (Except.ok _, w1) => sampleAll env ctx root rest { w1 with samples := w1.samples + 1 }
    | (Except.error _, w1) => (false, (sampleAll env ctx root rest w1).2)

/-- Modelled from the spec: `SharesAvailable` of the Availability Sampler (section 4.3),
which is implemented in package `share`: draw the sample, resolve it, and fail with
`ShareUnavailable` unless every sample resolved. -/
def sharesAvailable (env : Env) (ctx : Context) (root : Root) : World → error × World :=
  fun w =>
    let cs := sampleOf env root w
    match sampleAll env ctx root cs { w with drawn := w.drawn + cs.length } with
    | (true, w1) => (none, w1)
    | (false, w1) => (some Err.shareUnavailable, w1)

/-- Modelled from the spec: the confidence `1 - 2^-k` for a cumulative confirmed-sample
count `k`, as the `float64` the method returns: the float64 nearest to
`1 - 2^-k = (2^k - 1) / 2^k`. -/
def probability (k : Nat) : Float64 := Float64.ofRatio (2 ^ k - 1) (2 ^ k)

/-- Modelled from the spec: the Availability Sampler as a value of `share.Availability`.  A
nil Root cannot be sampled and aborts the call. -/
def sampler (env : Env) : AvailabilityImpl World where
  SharesAvailable := fun ctx dah w =>
    match dah with
    | none => (Outcome.panic, w)
    | some root =>
      (Outcome.ret (sharesAvailable env ctx root w).1, (sharesAvailable env ctx root w).2)
  ProbabilityOfAvailability := fun w => (Outcome.ret (probability w.samples), w)

/-- The world after a run of `SharesAvailable` calls on a Module, one per listed context
and Root. -/
def runSharesAvailable {W : Type} (m : Module W) : List (Context × Root) → W → W
  | [], w => w
  | (ctx, root) :: rest, w => runSharesAvailable m rest (m.SharesAvailable ctx (some root) w).2

/-- What the Share Service yields for a key, as a function of the content of the Share
Store: the stored Share, or else the Share the exchange delivers if it verifies. -/
def resolution (env : Env) (ctx : Context) (st : List (Key × Share)) (k : Key) :
    Option Share :=
  match st.lookup k with
  | some sh => some sh
  | none =>
    match env.fetch ctx k with
    | Except.ok sh => if env.verify k.root k.row k.col sh then some sh else none
    | Except.error _ => none

/-- A run from world `w` to world `v` is local-first when every Share that was in the
Share Store is still there, the trace only grew, and the Share Exchange was asked
only for keys that were not in the store at the start. -/
def LocalFirst (w v : World) : Prop :=
  (∀ k sh, w.store.lookup k = some sh → v.store.lookup k = some sh) ∧
  ∃ added : List Event, v.trace = w.trace ++ added ∧
    ∀ k, Event.exchangeFetch k ∈ added → w.store.lookup k = none

/-- The order of coordinates: by row, then by column. -/
def coordLt (p q : Nat × Nat) : Prop := p.1 < q.1 ∨ (p.1 = q.1 ∧ p.2 < q.2)

/-! ## Concrete instances -/

/-- A world with no state. -/
def demoAvailability : AvailabilityImpl Unit where
  SharesAvailable := fun _ root w =>
    (Outcome.ret (if root.isSome then none else some Err.shareUnavailable), w)
  ProbabilityOfAvailability := fun w => (Outcome.ret (Float64.pack false 1022 0), w)

/-- A Share Service over a world with no state that answers every call with the same
Share. -/
def demoShareService : ShareServiceImpl Unit where
  GetShare := fun _ _ _ _ w => (Outcome.ret ([7], none), w)
  GetShares := fun _ _ w => (Outcome.ret ([[[7]]], none), w)
  GetSharesByNamespace := fun _ _ _ w => (Outcome.ret ([], some Err.notFound), w)
  Start := fun _ w => (Outcome.ret none, w)
  Stop := fun _ w => (Outcome.ret (some Err.cancelled), w)

/-- The Module over the two instances above. -/
def demoModule : Module Unit := newModule (some demoShareService) (some demoAvailability)

/-- A square of size two: the first row holds namespace 1, the second row namespaces 2
to 3. -/
def demoRoot : Root :=
  { rowRoots := [⟨[1], [1], []⟩, ⟨[2], [3], []⟩]
    colRoots := [⟨[1], [2], []⟩, ⟨[1], [3], []⟩] }

/-- An environment in which the exchange delivers every Share, the Share at `(row, col)`
being the bytes `row + col + 1, row, col`, every Share verifies and the store
accepts every put. -/
def demoEnv : Env where
  fetch := fun _ k => Except.ok [k.row.toNat + k.col.toNat + 1, k.row.toNat, k.col.toNat]
  verify := fun _ _ _ _ => true
  storeAccepts := fun _ _ => true
  namespaceSize := 1
  sampleCount := 2
  entropy := fun n => n + 1
  startResult := fun _ => none
  stopResult := fun _ => none

/-- The environment `demoEnv` with a Share Store that fails every put. -/
def brokenStoreEnv : Env := { demoEnv with storeAccepts := fun _ _ => false }

/-- A context without deadline that is not cancelled. -/
def demoContext : Context := { deadline := none, cancelled := false }

/-- The world at process start: empty store, empty trace, no sample confirmed. -/
def emptyWorld : World := { store := [], trace := [], samples := 0, drawn := 0 }

/-- A world whose store holds the Share of coordinate `(0, 0)` of `demoRoot`. -/
def storedWorld : World :=
  { store := [(⟨demoRoot, 0, 0⟩, [5, 5])], trace := [], samples := 0, drawn := 0 }

/-! ## Theorems -/

/-- C1: every operation of the Module returned by `newModule s a` is the same-named call
on its delegate (`SharesAvailable` and `ProbabilityOfAvailability` on `a`, the
three Get operations on `s`), value, error and effect on the world included; and
with delegates that log their invocations, each operation returns what the
delegate method returns and adds exactly one entry, the same-named method, to
the log. -/
theorem newModule_delegates {W : Type} (s : ShareService W) (a : Availability W) :
    (∀ ctx root, (newModule s a).SharesAvailable ctx root
        = Availability.SharesAvailable a ctx root) ∧
    ((newModule s a).ProbabilityOfAvailability = Availability.ProbabilityOfAvailability a) ∧
    (∀ ctx dah row col, (newModule s a).GetShare ctx dah row col
        = ShareService.GetShare s ctx dah row col) ∧
    (∀ ctx root, (newModule s a).GetShares ctx root = ShareService.GetShares s ctx root) ∧
    (∀ ctx root nID, (newModule s a).GetSharesByNamespace ctx root nID
        = ShareService.GetSharesByNamespace s ctx root nID) ∧
    (∀ (si : ShareServiceImpl W) (ai : AvailabilityImpl W) (w : W) (log : List Method),
      (∀ ctx root, (newModule (some si.logged) (some ai.logged)).SharesAvailable ctx root (w, log)
          = ((ai.SharesAvailable ctx root w).1,
              ((ai.SharesAvailable ctx root w).2, log ++ [Method.SharesAvailable]))) ∧
      ((newModule (some si.logged) (some ai.logged)).ProbabilityOfAvailability (w, log)
          = ((ai.ProbabilityOfAvailability w).1,
              ((ai.ProbabilityOfAvailability w).2, log ++ [Method.ProbabilityOfAvailability]))) ∧
      (∀ ctx dah row col,
        (newModule (some si.logged) (some ai.logged)).GetShare ctx dah row col (w, log)
          = ((si.GetShare ctx dah row col w).1,
              ((si.GetShare ctx dah row col w).2, log ++ [Method.GetShare]))) ∧
      (∀ ctx root, (newModule (some si.logged) (some ai.logged)).GetShares ctx root (w, log)
          = ((si.GetShares ctx root w).1,
              ((si.GetShares ctx root w).2, log ++ [Method.GetShares]))) ∧
      (∀ ctx root nID,
        (newModule (some si.logged) (some ai.logged)).GetSharesByNamespace ctx root nID (w, log)
          = ((si.GetSharesByNamespace ctx root nID w).1,
              ((si.GetSharesByNamespace ctx root nID w).2,
                log ++ [Method.GetSharesByNamespace])))) := by
  refine ⟨fun _ _ => rfl, rfl, fun _ _ _ _ => rfl, fun _ _ => rfl, fun _ _ _ => rfl, ?_⟩
  intro si ai w log
  exact ⟨fun _ _ => rfl, rfl, fun _ _ _ _ => rfl, fun _ _ => rfl, fun _ _ _ => rfl⟩

/-- C2: the Module has no failure of its own.  For every Share Service and Availability
value, nil included, and for the Module of `newModule` and of `NewModule` alike,
a call of `SharesAvailable`, `GetShare`, `GetShares` or `GetSharesByNamespace`
fails exactly as the call on the delegate fails, panic or error value, and
succeeds when the delegate succeeds. -/
theorem module_failure_is_delegate_failure {W : Type} (lc : Lifecycle W) (tp : NodeType)
    (s : ShareService W) (a : Availability W) (ctx : Context) (root : Option Root)
    (row col : Int) (nID : NamespaceID) (w : W) :
    (failureOfError ((newModule s a).SharesAvailable ctx root w).1
        = failureOfError (Availability.SharesAvailable a ctx root w).1 ∧
      failureOfPair ((newModule s a).GetShare ctx root row col w).1
        = failureOfPair (ShareService.GetShare s ctx root row col w).1 ∧
      failureOfPair ((newModule s a).GetShares ctx root w).1
        = failureOfPair (ShareService.GetShares s ctx root w).1 ∧
      failureOfPair ((newModule s a).GetSharesByNamespace ctx root nID w).1
        = failureOfPair (ShareService.GetSharesByNamespace s ctx root nID w).1) ∧
    (failureOfError ((NewModule lc tp s a).1.SharesAvailable ctx root w).1
        = failureOfError (Availability.SharesAvailable a ctx root w).1 ∧
      failureOfPair ((NewModule lc tp s a).1.GetShare ctx root row col w).1
        = failureOfPair (ShareService.GetShare s ctx root row col w).1 ∧
      failureOfPair ((NewModule lc tp s a).1.GetShares ctx root w).1
        = failureOfPair (ShareService.GetShares s ctx root w).1 ∧
      failureOfPair ((NewModule lc tp s a).1.GetSharesByNamespace ctx root nID w).1
        = failureOfPair (ShareService.GetSharesByNamespace s ctx root nID w).1) ∧
    (∀ ai : AvailabilityImpl W,
      failureOfError ((newModule s (some ai)).SharesAvailable ctx root w).1
        = failureOfError (ai.SharesAvailable ctx root w).1) ∧
    (∀ si : ShareServiceImpl W,
      failureOfPair ((newModule (some si) a).GetShare ctx root row col w).1
        = failureOfPair (si.GetShare ctx root row col w).1 ∧
      failureOfPair ((newModule (some si) a).GetShares ctx root w).1
        = failureOfPair (si.GetShares ctx root w).1 ∧
      failureOfPair ((newModule (some si) a).GetSharesByNamespace ctx root nID w).1
        = failureOfPair (si.GetSharesByNamespace ctx root nID w).1) :=
  ⟨⟨rfl, rfl, rfl, rfl⟩, ⟨rfl, rfl, rfl, rfl⟩, fun _ => rfl, fun _ => ⟨rfl, rfl, rfl⟩⟩

/-- C3: the struct `API` mirrors the interface `Module` one to one.  Taking the methods
of a Module as fields gives a fully populated API from which the same Module is
read back, and every fully populated API is read back as a Module whose methods,
taken as fields, give that API again; an API with a nil field is no Module. -/
theorem api_mirrors_module {W : Type} :
    (∀ m : Module W, (Module.toAPI m).populated = true ∧
        API.toModule (Module.toAPI m) = some m) ∧
    (∀ api : API W, api.populated = true →
        ∃ m : Module W, API.toModule api = some m ∧ Module.toAPI m = api) ∧
    (∀ api : API W, api.populated = false → API.toModule api = none) := by
  refine ⟨fun m => ⟨rfl, rfl⟩, ?_, ?_⟩
  · rintro ⟨f1, f2, f3, f4, f5⟩ h
    cases f1 <;> cases f2 <;> cases f3 <;> cases f4 <;> cases f5 <;>
      simp [API.populated] at h
    exact ⟨_, rfl, rfl⟩
  · rintro ⟨f1, f2, f3, f4, f5⟩ h
    cases f1 <;> cases f2 <;> cases f3 <;> cases f4 <;> cases f5 <;>
      simp [API.populated] at h <;> rfl

/-- Witness of C3 at the API made of the methods of `demoModule`. -/
theorem api_mirrors_module_witness :
    (Module.toAPI demoModule).populated = true ∧
      ∃ m : Module Unit, API.toModule (Module.toAPI demoModule) = some m ∧
        Module.toAPI m = Module.toAPI demoModule :=
  ⟨rfl, api_mirrors_module.2.1 (Module.toAPI demoModule) rfl⟩

/-- C4: the two subsystems can be swapped independently.  The three Get operations of
`newModule s a` do not depend on the Availability, and `SharesAvailable` and
`ProbabilityOfAvailability` do not depend on the Share Service. -/
theorem newModule_swap_independent {W : Type} :
    (∀ (s : ShareService W) (a a2 : Availability W),
      (newModule s a).GetShare = (newModule s a2).GetShare ∧
      (newModule s a).GetShares = (newModule s a2).GetShares ∧
      (newModule s a).GetSharesByNamespace = (newModule s a2).GetSharesByNamespace) ∧
    (∀ (a : Availability W) (s s2 : ShareService W),
      (newModule s a).SharesAvailable = (newModule s2 a).SharesAvailable ∧
      (newModule s a).ProbabilityOfAvailability
        = (newModule s2 a).ProbabilityOfAvailability) :=
  ⟨fun _ _ _ => ⟨rfl, rfl, rfl⟩, fun _ _ _ => ⟨rfl, rfl⟩⟩

/-- C9: `NewShareService lc bServ` returns the service its constructor builds from
`bServ` and leaves the world as that constructor leaves it; the lifecycle
afterwards is `lc` followed by exactly one hook, whose `OnStart` is the `Start`
call and whose `OnStop` is the `Stop` call of the returned service, results and
effects unchanged; and with a service that logs its invocations the log is
untouched by `NewShareService`, so neither `Start` nor `Stop` was called. -/
theorem NewShareService_appends_one_hook {W : Type}
    (mk : BlockService → W → ShareService W × W) (lc : Lifecycle W) (bServ : BlockService)
    (w : W) :
    (NewShareService mk lc bServ w).1.1 = (mk bServ w).1 ∧
    (NewShareService mk lc bServ w).2 = (mk bServ w).2 ∧
    (∃ h : Hook W, (NewShareService mk lc bServ w).1.2 = lc ++ [h] ∧
      (∃ f, h.OnStart = some f ∧
        ∀ ctx, f ctx = ShareService.Start (NewShareService mk lc bServ w).1.1 ctx) ∧
      (∃ g, h.OnStop = some g ∧
        ∀ ctx, g ctx = ShareService.Stop (NewShareService mk lc bServ w).1.1 ctx)) ∧
    (∀ (mkI : BlockService → W → ShareServiceImpl W × W) (lcL : Lifecycle (W × List Method))
        (log : List Method),
      (NewShareService (loggedConstructor mkI) lcL bServ (w, log)).2.2 = log ∧
      ∀ ctx,
        ShareService.Start (NewShareService (loggedConstructor mkI) lcL bServ (w, log)).1.1
            ctx ((mkI bServ w).2, log)
          = (((mkI bServ w).1.Start ctx (mkI bServ w).2).1,
              (((mkI bServ w).1.Start ctx (mkI bServ w).2).2, log ++ [Method.Start])) ∧
        ShareService.Stop (NewShareService (loggedConstructor mkI) lcL bServ (w, log)).1.1
            ctx ((mkI bServ w).2, log)
          = (((mkI bServ w).1.Stop ctx (mkI bServ w).2).1,
              (((mkI bServ w).1.Stop ctx (mkI bServ w).2).2, log ++ [Method.Stop]))) := by
  refine ⟨rfl, rfl, ⟨_, rfl, ⟨_, rfl, fun _ => rfl⟩, ⟨_, rfl, fun _ => rfl⟩⟩, ?_⟩
  intro mkI lcL log
  exact ⟨rfl, fun _ => ⟨rfl, rfl⟩⟩

/-- C10: `NewModule lc tp s a` is `newModule s a` for every node type `tp`, so the Module
is the same for every node type, and the lifecycle `lc` is left as it was. -/
theorem NewModule_is_newModule {W : Type} (lc : Lifecycle W) (tp tp2 : NodeType)
    (s : ShareService W) (a : Availability W) :
    (NewModule lc tp s a).1 = newModule s a ∧
    (NewModule lc tp s a).1 = (NewModule lc tp2 s a).1 ∧
    (NewModule lc tp s a).2 = lc :=
  ⟨rfl, rfl, rfl⟩

/-! ## Lemmas on the Share Service and the sampler -/

theorem getShare_hit (env : Env) (ctx : Context) (root : Root) (row col : Int) (w : World)
    (sh : Share) (h : w.store.lookup ⟨root, row, col⟩ = some sh) :
    getShare env ctx root row col w =
      (Except.ok sh, { w with trace := w.trace ++ [Event.storeGet ⟨root, row, col⟩ true] }) := by
  simp only [getShare, h]

theorem getShare_miss (env : Env) (ctx : Context) (root : Root) (row col : Int) (w : World)
    (h : w.store.lookup ⟨root, row, col⟩ = none) :
    getShare env ctx root row col w =
      match env.fetch ctx ⟨root, row, col⟩ with
      | Except.error _ =>
        (Except.error Err.shareUnavailable,
          { w with trace := w.trace ++
              [Event.storeGet ⟨root, row, col⟩ false, Event.exchangeFetch ⟨root, row, col⟩] })
      | Except.ok sh =>
        if env.verify root row col sh then
          if env.storeAccepts ⟨root, row, col⟩ sh then
            (Except.ok sh,
              { w with
                store := (⟨root, row, col⟩, sh) :: w.store
                trace := w.trace ++
                  [Event.storeGet ⟨root, row, col⟩ false, Event.exchangeFetch ⟨root, row, col⟩,
                    Event.storePut ⟨root, row, col⟩ sh true] })
          else
            (Except.ok sh,
              { w with trace := w.trace ++
                  [Event.storeGet ⟨root, row, col⟩ false, Event.exchangeFetch ⟨root, row, col⟩,
                    Event.storePut ⟨root, row, col⟩ sh false] })
        else
          (Except.error Err.shareUnavailable,
            { w with trace := w.trace ++
                [Event.storeGet ⟨root, row, col⟩ false, Event.exchangeFetch ⟨root, row, col⟩] }) := by
  simp only [getShare, h]
  cases env.fetch ctx ⟨root, row, col⟩ with
  | error e => rfl
  | ok sh =>
    simp only []
    split
    · split <;> simp
    · rfl

theorem getShare_fst (env : Env) (ctx : Context) (root : Root) (row col : Int) (w : World) :
    (getShare env ctx root row col w).1 =
      match resolution env ctx w.store ⟨root, row, col⟩ with
      | some sh => Except.ok sh
      | none => Except.error Err.shareUnavailable := by
  cases h : w.store.lookup ⟨root, row, col⟩ with
  | some sh => simp only [getShare_hit env ctx root row col w sh h, resolution, h]
  | none =>
    simp only [getShare_miss env ctx root row col w h, resolution, h]
    cases hf : env.fetch ctx ⟨root, row, col⟩ with
    | error e => rfl
    | ok sh =>
      simp only []
      split
      · split <;> rfl
      · rfl

theorem getShare_resolution (env : Env) (ctx : Context) (root : Root) (row col : Int)
    (w : World) :
    resolution env ctx (getShare env ctx root row col w).2.store = resolution env ctx w.store := by
  cases h : w.store.lookup ⟨root, row, col⟩ with
  | some sh => simp only [getShare_hit env ctx root row col w sh h]
  | none =>
    simp only [getShare_miss env ctx root row col w h]
    cases hf : env.fetch ctx ⟨root, row, col⟩ with
    | error e => rfl
    | ok sh =>
      simp only []
      split
      · rename_i hv
        split
        · funext k2
          unfold resolution
          by_cases hk : k2 = ⟨root, row, col⟩
          · subst hk
            simp [List.lookup, h, hf, hv]
          · have hb : (k2 == (⟨root, row, col⟩ : Key)) = false := by simpa using hk
            simp [List.lookup, hb]
        · rfl
      · rfl

theorem getShare_samples (env : Env) (ctx : Context) (root : Root) (row col : Int)
    (w : World) :
    (getShare env ctx root row col w).2.samples = w.samples ∧
      (getShare env ctx root row col w).2.drawn = w.drawn := by
  cases h : w.store.lookup ⟨root, row, col⟩ with
  | some sh => simp only [getShare_hit env ctx root row col w sh h, and_self]
  | none =>
    simp only [getShare_miss env ctx root row col w h]
    cases hf : env.fetch ctx ⟨root, row, col⟩ with
    | error e => exact ⟨rfl, rfl⟩
    | ok sh =>
      simp only []
      split
      · split <;> exact ⟨rfl, rfl⟩
      · exact ⟨rfl, rfl⟩

theorem resolvesAt_eq (env : Env) (ctx : Context) (root : Root) (w : World) (rc : Nat × Nat) :
    resolvesAt env ctx root w rc = resolution env ctx w.store ⟨root, (rc.1 : Int), (rc.2 : Int)⟩ := by
  unfold resolvesAt
  rw [getShare_fst]
  cases resolution env ctx w.store ⟨root, (rc.1 : Int), (rc.2 : Int)⟩ <;> rfl

theorem andThen_eq {α β : Type} (m : Step α) (f : α → Step β) (w : World) :
    Step.andThen m f w =
      match (m w).1 with
      | Except.error e => (Except.error e, (m w).2)
      | Except.ok a => f a (m w).2 := by
  unfold Step.andThen
  rcases m w with ⟨_ | _, _⟩ <;> rfl

theorem getRow_spec (env : Env) (ctx : Context) (root : Root) (row : Nat) :
    ∀ (cols : List Nat) (w : World),
      resolution env ctx (getRow env ctx root row cols w).2.store = resolution env ctx w.store ∧
      ∀ shs, (getRow env ctx root row cols w).1 = Except.ok shs →
        List.Forall₂
          (fun (c : Nat) sh => resolution env ctx w.store ⟨root, (row : Int), (c : Int)⟩ = some sh)
          cols shs := by
  intro cols
  induction cols with
  | nil =>
    intro w
    refine ⟨rfl, ?_⟩
    intro shs h
    simp only [getRow] at h
    cases h
    exact List.Forall₂.nil
  | cons c cs ih =>
    intro w
    have h1 := getShare_fst env ctx root (row : Int) (c : Int) w
    have h2 := getShare_resolution env ctx root (row : Int) (c : Int) w
    simp only [getRow, andThen_eq]
    cases hr : resolution env ctx w.store ⟨root, (row : Int), (c : Int)⟩ with
    | none =>
      rw [hr] at h1
      simp only [h1]
      exact ⟨h2, fun shs h => by cases h⟩
    | some sh =>
      rw [hr] at h1
      simp only [h1]
      obtain ⟨ih1, ih2⟩ := ih (getShare env ctx root (row : Int) (c : Int) w).2
      rw [h2] at ih1 ih2
      cases hrest : (getRow env ctx root row cs (getShare env ctx root (row : Int) (c : Int) w).2).1 with
      | error e =>
        simp only []
        exact ⟨ih1, fun shs h => by cases h⟩
      | ok shs2 =>
        simp only []
        refine ⟨ih1, ?_⟩
        intro shs h
        cases h
        exact List.Forall₂.cons hr (ih2 shs2 hrest)

theorem forall₂_filter (f : Nat → Option Share) (p : Share → Bool) :
    ∀ (cols : List Nat) (shs : List Share),
      List.Forall₂ (fun c sh => f c = some sh) cols shs →
      ∃ cs : List Nat, cs.Sublist cols ∧
        List.Forall₂ (fun c sh => f c = some sh) cs (shs.filter p) ∧
        ∀ c ∈ cols, ∀ sh, f c = some sh → p sh = true → c ∈ cs := by
  intro cols shs h
  induction h with
  | nil => exact ⟨[], List.Sublist.slnil, List.Forall₂.nil, fun c hc => (by cases hc)⟩
  | @cons c sh cols shs hc _ ih =>
    obtain ⟨cs, hsub, hf, hall⟩ := ih
    by_cases hp : p sh = true
    · refine ⟨c :: cs, hsub.cons₂ c, ?_, ?_⟩
      · rw [List.filter_cons_of_pos hp]
        exact List.Forall₂.cons hc hf
      · intro c2 hc2 sh2 h2 hp2
        rcases List.mem_cons.1 hc2 with rfl | hmem
        · exact List.mem_cons_self _ _
        · exact List.mem_cons_of_mem _ (hall c2 hmem sh2 h2 hp2)
    · refine ⟨cs, hsub.cons c, ?_, ?_⟩
      · rw [List.filter_cons_of_neg hp]
        exact hf
      · intro c2 hc2 sh2 h2 hp2
        rcases List.mem_cons.1 hc2 with rfl | hmem
        · rw [hc] at h2
          cases h2
          exact absurd hp2 hp
        · exact hall c2 hmem sh2 h2 hp2

theorem namespaceRows_spec (env : Env) (ctx : Context) (root : Root) (nID : NamespaceID) :
    ∀ (rest : List Commitment) (row : Nat) (w : World),
      resolution env ctx (namespaceRows env ctx root nID row rest w).2.store
          = resolution env ctx w.store ∧
      ∀ shares, (namespaceRows env ctx root nID row rest w).1 = Except.ok shares →
        ∃ coords : List (Nat × Nat),
          coords.Pairwise coordLt ∧
          List.Forall₂
            (fun (p : Nat × Nat) sh =>
              resolution env ctx w.store ⟨root, (p.1 : Int), (p.2 : Int)⟩ = some sh)
            coords shares ∧
          (∀ sh ∈ shares, namespaceOf env sh = nID) ∧
          (∀ p ∈ coords, row ≤ p.1 ∧ p.2 < root.size ∧
            ∃ cm, rest.get? (p.1 - row) = some cm ∧ rowCovers cm nID = true) ∧
          (∀ r c cm sh, row ≤ r → rest.get? (r - row) = some cm → rowCovers cm nID = true →
            c < root.size →
            resolution env ctx w.store ⟨root, (r : Int), (c : Int)⟩ = some sh →
            namespaceOf env sh = nID → (r, c) ∈ coords) := by
  intro rest
  induction rest with
  | nil =>
    intro row w
    refine ⟨rfl, ?_⟩
    intro shares h
    simp only [namespaceRows] at h
    cases h
    refine ⟨[], List.Pairwise.nil, List.Forall₂.nil, fun sh hsh => (by cases hsh),
      fun p hp => (by cases hp), ?_⟩
    intro r c cm sh _ hget
    simp at hget
  | cons cm rest ih =>
    intro row w
    by_cases hcov : rowCovers cm nID = true
    · simp only [namespaceRows, hcov, if_true, andThen_eq]
      obtain ⟨g1, g2⟩ := getRow_spec env ctx root row (List.range root.size) w
      cases hrow : (getRow env ctx root row (List.range root.size) w).1 with
      | error e =>
        simp only []
        exact ⟨g1, fun shares h => by cases h⟩
      | ok shs =>
        simp only []
        obtain ⟨i1, i2⟩ := ih (row + 1) (getRow env ctx root row (List.range root.size) w).2
        rw [g1] at i1 i2
        cases hmore : (namespaceRows env ctx root nID (row + 1) rest
            (getRow env ctx root row (List.range root.size) w).2).1 with
        | error e =>
          simp only []
          exact ⟨i1, fun shares h => by cases h⟩
        | ok more =>
          simp only []
          refine ⟨i1, ?_⟩
          intro shares h
          cases h
          obtain ⟨coords, hpw, hf2, hns, hin, hcomp⟩ := i2 more hmore
          obtain ⟨cs, hsub, hcf, hcall⟩ :=
            forall₂_filter
              (fun (c : Nat) => resolution env ctx w.store ⟨root, (row : Int), (c : Int)⟩)
              (fun sh => decide (namespaceOf env sh = nID)) _ _ (g2 shs hrow)
          have hcsmem : ∀ c ∈ cs, c < root.size := fun c hc =>
            List.mem_range.1 (hsub.subset hc)
          have hcspw : cs.Pairwise (· < ·) := (List.pairwise_lt_range _).sublist hsub
          refine ⟨cs.map (fun c => (row, c)) ++ coords, ?_, ?_, ?_, ?_, ?_⟩
          · rw [List.pairwise_append]
            refine ⟨?_, hpw, ?_⟩
            · rw [List.pairwise_map]
              exact hcspw.imp (fun hab => Or.inr ⟨rfl, hab⟩)
            · intro p hp q hq
              obtain ⟨c, _, rfl⟩ := List.mem_map.1 hp
              exact Or.inl (Nat.lt_of_succ_le (hin q hq).1)
          · refine List.rel_append ?_ hf2
            rw [List.forall₂_map_left_iff]
            exact hcf
          · intro sh hsh
            rcases List.mem_append.1 hsh with h1 | h1
            · simpa using (List.mem_filter.1 h1).2
            · exact hns sh h1
          · intro p hp
            rcases List.mem_append.1 hp with h1 | h1
            · obtain ⟨c, hc, rfl⟩ := List.mem_map.1 h1
              exact ⟨le_refl _, hcsmem c hc, cm, by simp, hcov⟩
            · obtain ⟨a1, a2, cm2, a3, a4⟩ := hin p h1
              refine ⟨Nat.le_of_succ_le a1, a2, cm2, ?_, a4⟩
              have : p.1 - row = (p.1 - (row + 1)) + 1 := by omega
              rw [this, List.get?_cons_succ]
              exact a3
          · intro r c cm2 sh hr hget hcov2 hc hres hn
            rcases Nat.eq_or_lt_of_le hr with heq | hlt
            · subst heq
              refine List.mem_append_left _ (List.mem_map.2 ⟨c, ?_, rfl⟩)
              exact hcall c (List.mem_range.2 hc) sh hres (by simpa using hn)
            · refine List.mem_append_right _ (hcomp r c cm2 sh hlt ?_ hcov2 hc hres hn)
              have : r - row = (r - (row + 1)) + 1 := by omega
              rw [this, List.get?_cons_succ] at hget
              exact hget
    · simp only [namespaceRows, hcov, Bool.false_eq_true, if_false]
      obtain ⟨i1, i2⟩ := ih (row + 1) w
      refine ⟨i1, ?_⟩
      intro shares h
      obtain ⟨coords, hpw, hf2, hns, hin, hcomp⟩ := i2 shares h
      refine ⟨coords, hpw, hf2, hns, ?_, ?_⟩
      · intro p hp
        obtain ⟨a1, a2, cm2, a3, a4⟩ := hin p hp
        refine ⟨Nat.le_of_succ_le a1, a2, cm2, ?_, a4⟩
        have : p.1 - row = (p.1 - (row + 1)) + 1 := by omega
        rw [this, List.get?_cons_succ]
        exact a3
      · intro r c cm2 sh hr hget hcov2 hc hres hn
        rcases Nat.eq_or_lt_of_le hr with heq | hlt
        · subst heq
          simp at hget
          subst hget
          exact absurd hcov2 hcov
        · refine hcomp r c cm2 sh hlt ?_ hcov2 hc hres hn
          have : r - row = (r - (row + 1)) + 1 := by omega
          rw [this, List.get?_cons_succ] at hget
          exact hget

theorem sampleAll_spec (env : Env) (ctx : Context) (root : Root) :
    ∀ (cs : List (Nat × Nat)) (w : World),
      resolution env ctx (sampleAll env ctx root cs w).2.store = resolution env ctx w.store ∧
      ((sampleAll env ctx root cs w).1 = true ↔
        ∀ rc ∈ cs, ∃ sh,
          resolution env ctx w.store ⟨root, (rc.1 : Int), (rc.2 : Int)⟩ = some sh) ∧
      (sampleAll env ctx root cs w).2.samples = w.samples +
        (cs.filter fun rc =>
          (resolution env ctx w.store ⟨root, (rc.1 : Int), (rc.2 : Int)⟩).isSome).length := by
  intro cs
  induction cs with
  | nil =>
    intro w
    exact ⟨rfl, ⟨fun _ rc hrc => (by cases hrc), fun _ => rfl⟩, rfl⟩
  | cons rc rest ih =>
    intro w
    have h1 := getShare_fst env ctx root (rc.1 : Int) (rc.2 : Int) w
    have h2 := getShare_resolution env ctx root (rc.1 : Int) (rc.2 : Int) w
    have h3 := (getShare_samples env ctx root (rc.1 : Int) (rc.2 : Int) w).1
    rcases hg : getShare env ctx root (rc.1 : Int) (rc.2 : Int) w with ⟨res, w1⟩
    rw [hg] at h1 h2 h3
    simp only at h1 h2 h3
    cases hr : resolution env ctx w.store ⟨root, (rc.1 : Int), (rc.2 : Int)⟩ with
    | none =>
      rw [hr] at h1
      subst h1
      obtain ⟨i1, _, i3⟩ := ih w1
      rw [h2] at i1 i3
      simp only [sampleAll, hg]
      refine ⟨i1, ⟨fun h => (by cases h), fun h => ?_⟩, ?_⟩
      · obtain ⟨sh, hsh⟩ := h rc (List.mem_cons_self _ _)
        rw [hr] at hsh
        cases hsh
      · rw [i3, h3, List.filter_cons_of_neg (by simp [hr])]
    | some sh =>
      rw [hr] at h1
      subst h1
      obtain ⟨i1, i2, i3⟩ := ih { w1 with samples := w1.samples + 1 }
      simp only at i1 i2 i3
      rw [h2] at i1 i2 i3
      simp only [sampleAll, hg]
      refine ⟨i1, ⟨fun h => ?_, fun h => ?_⟩, ?_⟩
      · intro rc2 hrc2
        rcases List.mem_cons.1 hrc2 with rfl | hmem
        · exact ⟨sh, hr⟩
        · exact i2.1 h rc2 hmem
      · exact i2.2 (fun rc2 hrc2 => h rc2 (List.mem_cons_of_mem _ hrc2))
      · rw [i3, h3, List.filter_cons_of_pos (by simp [hr]), List.length_cons]
        omega

theorem drawSample_length (entropy : Nat → Nat) :
    ∀ (s pos : Nat) (pool : List (Nat × Nat)),
      (drawSample entropy s pos pool).length = min s pool.length := by
  intro s
  induction s with
  | zero => intro pos pool; simp [drawSample]
  | succ s ih =>
    intro pos pool
    cases pool with
    | nil => simp [drawSample]
    | cons p ps =>
      have hlt : entropy pos % (p :: ps).length < (p :: ps).length :=
        Nat.mod_lt _ (by simp)
      obtain ⟨c, hc⟩ : ∃ c, (p :: ps).get? (entropy pos % (p :: ps).length) = some c :=
        ⟨_, List.get?_eq_get hlt⟩
      simp only [drawSample, hc]
      rw [List.length_cons, ih, List.length_eraseIdx, if_pos hlt]
      simp only [List.length_cons, Nat.add_sub_cancel]
      omega

theorem drawSample_subset (entropy : Nat → Nat) :
    ∀ (s pos : Nat) (pool : List (Nat × Nat)),
      ∀ c ∈ drawSample entropy s pos pool, c ∈ pool := by
  intro s
  induction s with
  | zero => intro pos pool c hc; simp [drawSample] at hc
  | succ s ih =>
    intro pos pool c hc
    simp only [drawSample] at hc
    cases hget : pool.get? (entropy pos % pool.length) with
    | none => rw [hget] at hc; cases hc
    | some c0 =>
      rw [hget] at hc
      rcases List.mem_cons.1 hc with rfl | hmem
      · exact List.get?_mem hget
      · exact (List.eraseIdx_sublist _ _).subset (ih _ _ c hmem)

theorem drawSample_nodup (entropy : Nat → Nat) :
    ∀ (s pos : Nat) (pool : List (Nat × Nat)), pool.Nodup →
      (drawSample entropy s pos pool).Nodup := by
  intro s
  induction s with
  | zero => intro pos pool _; simp [drawSample]
  | succ s ih =>
    intro pos pool hnd
    simp only [drawSample]
    cases hget : pool.get? (entropy pos % pool.length) with
    | none => exact List.nodup_nil
    | some c0 =>
      simp only []
      refine List.nodup_cons.2 ⟨?_, ih _ _ (hnd.sublist (List.eraseIdx_sublist _ _))⟩
      intro hmem
      have hin := drawSample_subset entropy s (pos + 1) _ c0 hmem
      rw [List.mem_eraseIdx_iff_getElem?] at hin
      obtain ⟨i, hne, hi⟩ := hin
      rw [List.get?_eq_getElem?] at hget
      have hlt : i < pool.length := (List.getElem?_eq_some_iff.1 hi).1
      exact hne (List.getElem?_inj hlt hnd (hi.trans hget.symm))

theorem grid_mem (n : Nat) (p : Nat × Nat) : p ∈ grid n ↔ p.1 < n ∧ p.2 < n := by
  unfold grid
  simp only [List.mem_flatMap, List.mem_range, List.mem_map]
  constructor
  · rintro ⟨r, hr, c, hc, rfl⟩
    exact ⟨hr, hc⟩
  · rintro ⟨h1, h2⟩
    exact ⟨p.1, h1, p.2, h2, rfl⟩

theorem grid_nodup (n : Nat) : (grid n).Nodup := by
  unfold grid
  rw [List.nodup_flatMap]
  refine ⟨fun r _ => (List.nodup_range n).map (fun a b h => (Prod.mk.inj h).2), ?_⟩
  refine (List.nodup_range n).pairwise_of_forall_ne ?_
  intro r _ r2 _ hne
  simp only [Function.onFun, List.disjoint_left, List.mem_map]
  rintro p ⟨c, _, rfl⟩ ⟨c2, _, h⟩
  exact hne (Prod.mk.inj h).1.symm

theorem grid_length (n : Nat) : (grid n).length = n * n := by
  have h : ∀ l : List Nat,
      (l.flatMap fun r => (List.range n).map fun c => (r, c)).length = l.length * n := by
    intro l
    induction l with
    | nil => simp
    | cons a l ih =>
      rw [List.flatMap_cons, List.length_append, ih, List.length_map, List.length_range,
        List.length_cons, Nat.succ_mul, Nat.add_comm]
  unfold grid
  rw [h, List.length_range]

/-! ## The Module over the Share Service and the sampler of the design -/

/-- C7: when `GetSharesByNamespace` of the Module succeeds, the Shares it returns are the
Shares at a list of coordinates that is strictly increasing by `(row, col)`;
every returned Share has exactly the queried namespace identifier; every
coordinate lies in the square, in a row whose commitment range covers the
namespace; and no Share of the namespace in such a row is left out. -/
theorem GetSharesByNamespace_ordered (env : Env) (a : Availability World) (ctx : Context)
    (root : Root) (nID : NamespaceID) (w : World) (shares : List Share)
    (h : ((newModule (some (shareService env)) a).GetSharesByNamespace ctx (some root) nID
      w).1 = Outcome.ret (shares, none)) :
    ∃ coords : List (Nat × Nat),
      coords.Pairwise (fun p q => p.1 < q.1 ∨ (p.1 = q.1 ∧ p.2 < q.2)) ∧
      List.Forall₂ (fun (p : Nat × Nat) sh => resolvesAt env ctx root w p = some sh)
        coords shares ∧
      (∀ sh ∈ shares, namespaceOf env sh = nID) ∧
      (∀ p ∈ coords, p.1 < root.size ∧ p.2 < root.size ∧
        ∃ cm, root.rowRoots.get? p.1 = some cm ∧ rowCovers cm nID = true) ∧
      (∀ r c cm sh, root.rowRoots.get? r = some cm → rowCovers cm nID = true →
        c < root.size → resolvesAt env ctx root w (r, c) = some sh →
        namespaceOf env sh = nID → (r, c) ∈ coords) := by
  have hcall : (newModule (some (shareService env)) a).GetSharesByNamespace ctx (some root)
      nID w = goResult [] (namespaceRows env ctx root nID 0 root.rowRoots w) := rfl
  rw [hcall] at h
  obtain ⟨_, hspec⟩ := namespaceRows_spec env ctx root nID root.rowRoots 0 w
  cases hres : (namespaceRows env ctx root nID 0 root.rowRoots w).1 with
  | error e =>
    rcases hp : namespaceRows env ctx root nID 0 root.rowRoots w with ⟨r1, w1⟩
    rw [hp] at hres h
    simp only at hres
    subst hres
    simp [goResult] at h
  | ok shs =>
    have hshs : shs = shares := by
      rcases hp : namespaceRows env ctx root nID 0 root.rowRoots w with ⟨r1, w1⟩
      rw [hp] at hres h
      simp only at hres
      subst hres
      simpa [goResult] using h
    subst hshs
    obtain ⟨coords, hpw, hf2, hns, hin, hcomp⟩ := hspec shs hres
    refine ⟨coords, hpw, ?_, hns, ?_, ?_⟩
    · refine hf2.imp ?_
      intro p sh hp
      rw [resolvesAt_eq]
      exact hp
    · intro p hp
      obtain ⟨_, a2, cm, a3, a4⟩ := hin p hp
      rw [Nat.sub_zero] at a3
      refine ⟨?_, a2, cm, a3, a4⟩
      exact (List.get?_eq_some.1 a3).1
    · intro r c cm sh hget hcov hc hr hn
      rw [resolvesAt_eq] at hr
      exact hcomp r c cm sh (Nat.zero_le _) (by rw [Nat.sub_zero]; exact hget) hcov hc hr hn

/-- Witness of C7: the query for namespace 2 in `demoRoot` returns the one Share of that
namespace, the Share at `(1, 0)`. -/
theorem GetSharesByNamespace_ordered_witness :
    ∃ coords : List (Nat × Nat),
      coords.Pairwise (fun p q => p.1 < q.1 ∨ (p.1 = q.1 ∧ p.2 < q.2)) ∧
      List.Forall₂
        (fun (p : Nat × Nat) sh => resolvesAt demoEnv demoContext demoRoot emptyWorld p = some sh)
        coords [[2, 1, 0]] ∧
      (∀ sh ∈ [[2, 1, 0]], namespaceOf demoEnv sh = [2]) ∧
      (∀ p ∈ coords, p.1 < demoRoot.size ∧ p.2 < demoRoot.size ∧
        ∃ cm, demoRoot.rowRoots.get? p.1 = some cm ∧ rowCovers cm [2] = true) ∧
      (∀ r c cm sh, demoRoot.rowRoots.get? r = some cm → rowCovers cm [2] = true →
        c < demoRoot.size → resolvesAt demoEnv demoContext demoRoot emptyWorld (r, c) = some sh →
        namespaceOf demoEnv sh = [2] → (r, c) ∈ coords) :=
  GetSharesByNamespace_ordered demoEnv none demoContext demoRoot [2] emptyWorld [[2, 1, 0]] rfl

/-- C8: `SharesAvailable` of the Module always returns, with no error or with
`ShareUnavailable`.  It returns `ShareUnavailable` exactly when at least one of
the sampled coordinates does not resolve, and no error exactly when every
sampled coordinate resolves; the sample consists of `min s (N * N)` distinct
coordinates of the square, for every sample count `s`. -/
theorem SharesAvailable_fails_iff_sample_unresolved (env : Env) (s : ShareService World)
    (ctx : Context) (root : Root) (w : World) :
    (((newModule s (some (sampler env))).SharesAvailable ctx (some root) w).1
        = Outcome.ret (some Err.shareUnavailable) ↔
      ∃ rc ∈ sampleOf env root w, resolvesAt env ctx root w rc = none) ∧
    (((newModule s (some (sampler env))).SharesAvailable ctx (some root) w).1
        = Outcome.ret none ↔
      ∀ rc ∈ sampleOf env root w, ∃ sh, resolvesAt env ctx root w rc = some sh) ∧
    (((newModule s (some (sampler env))).SharesAvailable ctx (some root) w).1
        = Outcome.ret none ∨
      ((newModule s (some (sampler env))).SharesAvailable ctx (some root) w).1
        = Outcome.ret (some Err.shareUnavailable)) ∧
    (sampleOf env root w).length = min env.sampleCount (root.size * root.size) ∧
    (sampleOf env root w).Nodup ∧
    (∀ rc ∈ sampleOf env root w, rc.1 < root.size ∧ rc.2 < root.size) := by
  have hcall : ((newModule s (some (sampler env))).SharesAvailable ctx (some root) w).1
      = Outcome.ret (sharesAvailable env ctx root w).1 := rfl
  obtain ⟨_, hall, _⟩ := sampleAll_spec env ctx root (sampleOf env root w)
    { w with drawn := w.drawn + (sampleOf env root w).length }
  simp only at hall
  have hiff : (sharesAvailable env ctx root w).1 = none ↔
      ∀ rc ∈ sampleOf env root w, ∃ sh, resolvesAt env ctx root w rc = some sh := by
    rw [← (show (∀ rc ∈ sampleOf env root w, ∃ sh,
        resolution env ctx w.store ⟨root, (rc.1 : Int), (rc.2 : Int)⟩ = some sh) ↔ _ from
      forall₂_congr fun rc _ => by rw [resolvesAt_eq]), ← hall]
    unfold sharesAvailable
    simp only
    rcases sampleAll env ctx root (sampleOf env root w)
      { w with drawn := w.drawn + (sampleOf env root w).length } with ⟨b, w1⟩
    cases b <;> simp
  have hcases : (sharesAvailable env ctx root w).1 = none ∨
      (sharesAvailable env ctx root w).1 = some Err.shareUnavailable := by
    unfold sharesAvailable
    simp only
    rcases sampleAll env ctx root (sampleOf env root w)
      { w with drawn := w.drawn + (sampleOf env root w).length } with ⟨b, w1⟩
    cases b <;> simp
  rw [hcall]
  refine ⟨?_, ?_, ?_, ?_, ?_, ?_⟩
  · constructor
    · intro h
      have h1 : (sharesAvailable env ctx root w).1 = some Err.shareUnavailable :=
        Outcome.ret.inj h
      by_contra hcon
      have : ∀ rc ∈ sampleOf env root w, ∃ sh, resolvesAt env ctx root w rc = some sh := by
        intro rc hrc
        cases hr : resolvesAt env ctx root w rc with
        | none => exact absurd ⟨rc, hrc, hr⟩ hcon
        | some sh => exact ⟨sh, rfl⟩
      rw [hiff.2 this] at h1
      cases h1
    · rintro ⟨rc, hrc, hnone⟩
      rcases hcases with h1 | h1
      · obtain ⟨sh, hsh⟩ := hiff.1 h1 rc hrc
        rw [hnone] at hsh
        cases hsh
      · rw [h1]
  · constructor
    · intro h
      exact hiff.1 (Outcome.ret.inj h)
    · intro h
      rw [hiff.2 h]
  · rcases hcases with h1 | h1
    · exact Or.inl (by rw [h1])
    · exact Or.inr (by rw [h1])
  · unfold sampleOf
    rw [drawSample_length, grid_length]
  · exact drawSample_nodup _ _ _ _ (grid_nodup _)
  · intro rc hrc
    exact (grid_mem _ _).1 (drawSample_subset _ _ _ _ rc hrc)

theorem binaryExponent_probability (k : Nat) (hk : 1 ≤ k) :
    binaryExponent (2 ^ k - 1) (2 ^ k) = -1 := by
  have hpos : 2 ≤ 2 ^ k := by
    calc 2 = 2 ^ 1 := rfl
      _ ≤ 2 ^ k := Nat.pow_le_pow_right (by decide) hk
  have hne : 2 ^ k - 1 ≠ 0 := by omega
  have hlog : Nat.log2 (2 ^ k - 1) = k - 1 := by
    apply Nat.le_antisymm
    · have : Nat.log2 (2 ^ k - 1) < k := (Nat.log2_lt hne).2 (by omega)
      omega
    · rw [Nat.le_log2 hne]
      have h2 : 2 ^ k = 2 * 2 ^ (k - 1) := by
        rw [← Nat.pow_succ']
        congr 1
        omega
      omega
  unfold binaryExponent
  rw [hlog, Nat.log2_two_pow]
  have he : ((k - 1 : Nat) : Int) - (k : Int) = -1 := by omega
  simp only [he]
  have h1 : (-1 : Int).toNat = 0 := rfl
  have h2 : (-(-1) : Int).toNat = 1 := rfl
  rw [h1, h2, if_pos]
  omega

theorem roundHalfEven_exact (q d : Nat) (hd : 0 < d) : roundHalfEven (q * d) d = q := by
  unfold roundHalfEven
  rw [Nat.mul_mod_left, Nat.mul_div_cancel _ hd, if_pos (by omega)]

theorem pack_toRat_normal (e f : Nat) (he : 0 < e) (he2 : e < 2047)
    (hf : f < 4503599627370496) :
    (Float64.pack false e f).toRat? =
      some ((((4503599627370496 + f) * 2 ^ e : Nat) : ℚ) / 2 ^ 1075) := by
  unfold Float64.toRat? Float64.pack
  have h1 : e % 2048 = e := Nat.mod_eq_of_lt (by omega)
  have h2 : f % 4503599627370496 = f := Nat.mod_eq_of_lt hf
  simp only [h1, h2]
  rw [if_neg (by omega), if_neg (by omega)]
  simp

theorem probability_small (k : Nat) (hk : 1 ≤ k) (hk2 : k ≤ 53) :
    probability k = Float64.pack false 1022 (2 ^ 53 - 2 ^ (53 - k) - 2 ^ 52) := by
  have hpos : 2 ≤ 2 ^ k := by
    calc 2 = 2 ^ 1 := rfl
      _ ≤ 2 ^ k := Nat.pow_le_pow_right (by decide) hk
  have hsplit : 2 ^ k * 2 ^ (53 - k) = 2 ^ 53 := by
    rw [← Nat.pow_add]
    congr 1
    omega
  have hy1 : 1 ≤ 2 ^ (53 - k) := Nat.one_le_two_pow
  have hy2 : 2 ^ (53 - k) ≤ 2 ^ 52 := Nat.pow_le_pow_right (by decide) (by omega)
  unfold probability Float64.ofRatio
  rw [if_neg (by omega), if_neg (by omega), binaryExponent_probability k hk]
  have hmax : max (-1 : Int) (-1022) = -1 := by decide
  simp only [hmax]
  have h1 : ((52 : Int) - (-1)).toNat = 53 := rfl
  have h2 : ((-1 : Int) - 52).toNat = 0 := rfl
  rw [h1, h2]
  have hm : roundHalfEven ((2 ^ k - 1) * 2 ^ 53) (2 ^ k * 2 ^ 0)
      = 2 ^ 53 - 2 ^ (53 - k) := by
    have : (2 ^ k - 1) * 2 ^ 53 = (2 ^ 53 - 2 ^ (53 - k)) * (2 ^ k * 2 ^ 0) := by
      rw [Nat.pow_zero, Nat.mul_one, Nat.sub_mul, Nat.sub_mul, Nat.one_mul,
        Nat.mul_comm (2 ^ (53 - k)) (2 ^ k), hsplit, Nat.mul_comm]
    rw [this]
    exact roundHalfEven_exact _ _ (by positivity)
  rw [hm]
  have hne : 2 ^ 53 - 2 ^ (53 - k) ≠ 2 ^ 53 := by omega
  simp only [if_neg hne]
  rw [if_neg (by omega), if_neg (by decide)]
  rfl

theorem probability_large (k : Nat) (hk : 54 ≤ k) :
    probability k = Float64.pack false 1023 0 := by
  have hsplit : 2 ^ k = 2 ^ 54 * 2 ^ (k - 54) := by
    rw [← Nat.pow_add]
    congr 1
    omega
  have hz : 1 ≤ 2 ^ (k - 54) := Nat.one_le_two_pow
  have hge : 2 ^ 54 ≤ 2 ^ k := Nat.pow_le_pow_right (by decide) hk
  unfold probability Float64.ofRatio
  rw [if_neg (by omega), if_neg (by omega), binaryExponent_probability k (by omega)]
  have hmax : max (-1 : Int) (-1022) = -1 := by decide
  simp only [hmax]
  have h1 : ((52 : Int) - (-1)).toNat = 53 := rfl
  have h2 : ((-1 : Int) - 52).toNat = 0 := rfl
  rw [h1, h2]
  have hm : roundHalfEven ((2 ^ k - 1) * 2 ^ 53) (2 ^ k * 2 ^ 0) = 2 ^ 53 := by
    have hnum : (2 ^ k - 1) * 2 ^ 53 = (2 ^ k - 2 ^ 53) + (2 ^ 53 - 1) * 2 ^ k := by
      rw [Nat.sub_mul, Nat.sub_mul, Nat.one_mul, Nat.one_mul, Nat.mul_comm (2 ^ 53) (2 ^ k)]
      have : 2 ^ 53 ≤ 2 ^ k * 2 ^ 53 := Nat.le_mul_of_pos_left _ (by positivity)
      have : 2 ^ k ≤ 2 ^ k * 2 ^ 53 := Nat.le_mul_of_pos_right _ (by positivity)
      omega
    have hlt : 2 ^ k - 2 ^ 53 < 2 ^ k := by
      have : 0 < 2 ^ k := by positivity
      omega
    have hdiv : (2 ^ k - 1) * 2 ^ 53 / (2 ^ k * 2 ^ 0) = 2 ^ 53 - 1 := by
      rw [Nat.pow_zero, Nat.mul_one, hnum, Nat.add_mul_div_right _ _ (by positivity),
        Nat.div_eq_of_lt hlt, Nat.zero_add]
    have hmod : (2 ^ k - 1) * 2 ^ 53 % (2 ^ k * 2 ^ 0) = 2 ^ k - 2 ^ 53 := by
      rw [Nat.pow_zero, Nat.mul_one, hnum, Nat.add_mul_mod_self_right, Nat.mod_eq_of_lt hlt]
    unfold roundHalfEven
    rw [hdiv, hmod, Nat.pow_zero, Nat.mul_one]
    rw [if_neg (by omega)]
    by_cases h54 : k = 54
    · subst h54
      decide
    · have : 2 ^ 55 ≤ 2 ^ k := Nat.pow_le_pow_right (by decide) (by omega)
      rw [if_pos (by omega)]
      norm_num
  rw [hm]
  simp only [if_true]
  rw [if_neg (by decide), if_neg (by decide)]
  rfl


theorem probability_zero : probability 0 = Float64.pack false 0 0 := by
  decide

theorem probability_value_small (k : Nat) (hk : k ≤ 53) :
    (probability k).toRat? = some (1 - 1 / 2 ^ k) := by
  rcases Nat.eq_zero_or_pos k with h0 | hpos
  · subst h0
    rw [probability_zero]
    simp [Float64.toRat?, Float64.pack]
  · have hsplit : 2 ^ k * 2 ^ (53 - k) = 2 ^ 53 := by
      rw [← Nat.pow_add]
      congr 1
      omega
    have hy1 : 1 ≤ 2 ^ (53 - k) := Nat.one_le_two_pow
    have hy2 : 2 ^ (53 - k) ≤ 2 ^ 52 := Nat.pow_le_pow_right (by decide) (by omega)
    rw [probability_small k hpos hk, pack_toRat_normal _ _ (by decide) (by decide) (by omega)]
    have hm : 4503599627370496 + (2 ^ 53 - 2 ^ (53 - k) - 2 ^ 52) = 2 ^ 53 - 2 ^ (53 - k) := by
      omega
    rw [hm]
    refine congrArg some ?_
    have hq : ((2 : ℚ) ^ k) * 2 ^ (53 - k) = 2 ^ 53 := by exact_mod_cast hsplit
    have hxpos : (0 : ℚ) < 2 ^ k := by positivity
    have hcast : (((2 ^ 53 - 2 ^ (53 - k)) * 2 ^ 1022 : Nat) : ℚ)
        = (2 ^ 53 - 2 ^ (53 - k)) * 2 ^ 1022 := by
      rw [Nat.cast_mul, Nat.cast_sub (by omega)]
      simp only [Nat.cast_pow, Nat.cast_ofNat]
    rw [hcast, ← hq]
    have h1075 : (2 : ℚ) ^ 1075 = 2 ^ 53 * 2 ^ 1022 := by rw [← pow_add]
    have hypos : (0 : ℚ) < 2 ^ (53 - k) := by positivity
    have h1022 : (0 : ℚ) < 2 ^ 1022 := by positivity
    rw [h1075, ← hq]
    field_simp
    ring

theorem probability_value_large (k : Nat) (hk : 54 ≤ k) :
    (probability k).toRat? = some 1 := by
  rw [probability_large k hk, pack_toRat_normal _ _ (by decide) (by decide) (by decide)]
  norm_num


theorem float64_below_one (y : Float64) (q : ℚ) (hy : y.toRat? = some q) (hq : q < 1) :
    q ≤ 1 - 1 / 2 ^ 53 := by
  have hP : (0 : ℚ) < 2 ^ 1022 := by positivity
  have h1075 : (2 : ℚ) ^ 1075 = 2 ^ 53 * 2 ^ 1022 := by rw [← pow_add]
  have h1075pos : (0 : ℚ) < 2 ^ 1075 := by positivity
  have hbound : (1 : ℚ) - 1 / 2 ^ 53 = (2 ^ 53 - 1) * 2 ^ 1022 / 2 ^ 1075 := by
    rw [h1075]
    field_simp
    ring
  have hnonneg : (0 : ℚ) ≤ 1 - 1 / 2 ^ 53 := by norm_num
  -- a nonnegative natural numerator below the bound
  have key : ∀ N : Nat, N ≤ (2 ^ 53 - 1) * 2 ^ 1022 → ((N : ℚ)) / 2 ^ 1075 ≤ 1 - 1 / 2 ^ 53 := by
    intro N hN
    rw [hbound]
    apply div_le_div_of_nonneg_right _ h1075pos.le
    have : ((N : ℚ)) ≤ (((2 ^ 53 - 1) * 2 ^ 1022 : Nat) : ℚ) := by exact_mod_cast hN
    refine le_trans this (le_of_eq ?_)
    rw [Nat.cast_mul, Nat.cast_sub (Nat.one_le_two_pow)]
    simp only [Nat.cast_pow, Nat.cast_ofNat, Nat.cast_one]
  unfold Float64.toRat? at hy
  by_cases h2047 : y.exponent.val = 2047
  · rw [if_pos h2047] at hy
    cases hy
  · rw [if_neg h2047] at hy
    have hf : y.fraction.val < 4503599627370496 := y.fraction.isLt
    have he : y.exponent.val < 2048 := y.exponent.isLt
    cases hs : y.sign with
    | true =>
      have hneg : q ≤ 0 := by
        by_cases h0 : y.exponent.val = 0
        · rw [if_pos h0, hs] at hy
          cases hy
          simp only [if_true]
          apply div_nonpos_of_nonpos_of_nonneg _ h1075pos.le
          have : (0 : ℚ) ≤ ((y.fraction.val * 2 : Nat) : ℚ) := Nat.cast_nonneg _
          linarith
        · rw [if_neg h0, hs] at hy
          cases hy
          simp only [if_true]
          apply div_nonpos_of_nonpos_of_nonneg _ h1075pos.le
          have : (0 : ℚ) ≤ (((4503599627370496 + y.fraction.val) * 2 ^ y.exponent.val : Nat) : ℚ) :=
            Nat.cast_nonneg _
          linarith
      linarith
    | false =>
      by_cases h0 : y.exponent.val = 0
      · rw [if_pos h0, hs] at hy
        cases hy
        simp only [Bool.false_eq_true, if_false, one_mul]
        apply key
        have h1 : y.fraction.val * 2 ≤ 2 ^ 53 := by omega
        have h2 : ∀ p : Nat, 1 ≤ p → 2 ^ 53 ≤ (2 ^ 53 - 1) * 2 ^ p := by
          intro p hp
          calc 2 ^ 53 = 2 ^ 52 * 2 ^ 1 := by norm_num
            _ ≤ (2 ^ 53 - 1) * 2 ^ p :=
              Nat.mul_le_mul (by norm_num) (Nat.pow_le_pow_right Nat.zero_lt_two hp)
        exact le_trans h1 (h2 1022 (by omega))
      · rw [if_neg h0, hs] at hy
        cases hy
        simp only [Bool.false_eq_true, if_false, one_mul] at hq ⊢
        by_cases hE : y.exponent.val ≤ 1022
        · apply key
          have hA : 4503599627370496 + y.fraction.val ≤ 2 ^ 53 - 1 := by omega
          have hB : ∀ p : Nat, y.exponent.val ≤ p → 2 ^ y.exponent.val ≤ 2 ^ p :=
            fun p hp => Nat.pow_le_pow_right Nat.zero_lt_two hp
          exact Nat.mul_le_mul hA (hB 1022 hE)
        · exfalso
          have hge : 2 ^ 1075 ≤ (4503599627370496 + y.fraction.val) * 2 ^ y.exponent.val := by
            have hA : 2 ^ 52 ≤ 4503599627370496 + y.fraction.val := by omega
            have hB : ∀ p : Nat, p ≤ y.exponent.val → 2 ^ p ≤ 2 ^ y.exponent.val :=
              fun p hp => Nat.pow_le_pow_right Nat.zero_lt_two hp
            have hsum : 2 ^ 1075 = 2 ^ 52 * 2 ^ 1023 := by rw [← Nat.pow_add]
            rw [hsum]
            exact Nat.mul_le_mul hA (hB 1023 (by omega))
          have hge2 : (1 : ℚ) ≤
              (((4503599627370496 + y.fraction.val) * 2 ^ y.exponent.val : Nat) : ℚ) / 2 ^ 1075 := by
            rw [le_div_iff₀ h1075pos, one_mul]
            have : (((2 ^ 1075 : Nat)) : ℚ) ≤
                (((4503599627370496 + y.fraction.val) * 2 ^ y.exponent.val : Nat) : ℚ) := by
              exact_mod_cast hge
            refine le_trans (le_of_eq ?_) this
            simp only [Nat.cast_pow, Nat.cast_ofNat]
          linarith

theorem probability_nearest (k : Nat) (y : Float64) (q : ℚ) (hy : y.toRat? = some q) :
    ∃ v, (probability k).toRat? = some v ∧ |v - (1 - 1 / 2 ^ k)| ≤ |q - (1 - 1 / 2 ^ k)| := by
  by_cases hk : k ≤ 53
  · refine ⟨_, probability_value_small k hk, ?_⟩
    rw [sub_self, abs_zero]
    exact abs_nonneg _
  · have hk2 : 54 ≤ k := by omega
    refine ⟨1, probability_value_large k hk2, ?_⟩
    have hpow : (2 : ℚ) ^ 54 ≤ 2 ^ k := pow_le_pow_right₀ (by norm_num) hk2
    have hkpos : (0 : ℚ) < 2 ^ k := by positivity
    have hsmall : (1 : ℚ) / 2 ^ k ≤ 1 / 2 ^ 54 := one_div_le_one_div_of_le (by positivity) hpow
    have h53 : (1 : ℚ) / 2 ^ 53 = 2 * (1 / 2 ^ 54) := by norm_num
    have hinv : (0 : ℚ) < 1 / 2 ^ k := by positivity
    rw [show (1 : ℚ) - (1 - 1 / 2 ^ k) = 1 / 2 ^ k by ring, abs_of_pos hinv]
    by_cases hq : q < 1
    · have := float64_below_one y q hy hq
      rw [abs_of_nonpos (by linarith)]
      linarith
    · rw [abs_of_nonneg (by linarith)]
      linarith

theorem probability_value_le_one (k : Nat) :
    ∃ v, (probability k).toRat? = some v ∧ 0 ≤ v ∧ v ≤ 1 := by
  by_cases hk : k ≤ 53
  · refine ⟨_, probability_value_small k hk, ?_, ?_⟩
    · have hge : (1 : ℚ) ≤ 2 ^ k := one_le_pow₀ (by norm_num)
      have hpos : (0 : ℚ) < 2 ^ k := by positivity
      have h1 : (1 : ℚ) / 2 ^ k ≤ 1 := by
        rw [div_le_one hpos]
        exact hge
      linarith
    · have h0 : (0 : ℚ) ≤ 1 / 2 ^ k := by positivity
      linarith
  · exact ⟨1, probability_value_large k (by omega), by norm_num, le_refl _⟩

theorem probability_value_mono {k1 k2 : Nat} (h : k1 ≤ k2) :
    ∃ v1 v2, (probability k1).toRat? = some v1 ∧ (probability k2).toRat? = some v2 ∧
      v1 ≤ v2 := by
  by_cases hk2 : k2 ≤ 53
  · refine ⟨_, _, probability_value_small k1 (by omega), probability_value_small k2 hk2, ?_⟩
    have h2 : (2 : ℚ) ^ k1 ≤ 2 ^ k2 := pow_le_pow_right₀ (by norm_num) h
    have hpos : (0 : ℚ) < 2 ^ k1 := by positivity
    have := one_div_le_one_div_of_le hpos h2
    linarith
  · obtain ⟨v1, hv1, _, hle⟩ := probability_value_le_one k1
    exact ⟨v1, 1, hv1, probability_value_large k2 (by omega), hle⟩

theorem sharesAvailable_samples (env : Env) (ctx : Context) (root : Root) (w : World) :
    (sharesAvailable env ctx root w).2.samples = w.samples +
      ((sampleOf env root w).filter fun rc => (resolvesAt env ctx root w rc).isSome).length := by
  obtain ⟨_, _, hcount⟩ := sampleAll_spec env ctx root (sampleOf env root w)
    { w with drawn := w.drawn + (sampleOf env root w).length }
  simp only at hcount
  have hf : ((sampleOf env root w).filter fun rc => (resolvesAt env ctx root w rc).isSome)
      = (sampleOf env root w).filter fun rc =>
          (resolution env ctx w.store ⟨root, (rc.1 : Int), (rc.2 : Int)⟩).isSome := by
    congr 1
    funext rc
    rw [resolvesAt_eq]
  rw [hf, ← hcount]
  unfold sharesAvailable
  simp only
  rcases sampleAll env ctx root (sampleOf env root w)
    { w with drawn := w.drawn + (sampleOf env root w).length } with ⟨b, w1⟩
  cases b <;> rfl

theorem runSharesAvailable_samples (env : Env) (s : ShareService World) :
    ∀ (calls : List (Context × Root)) (w : World),
      w.samples ≤ (runSharesAvailable (newModule s (some (sampler env))) calls w).samples := by
  intro calls
  induction calls with
  | nil => intro w; exact le_refl _
  | cons c rest ih =>
    intro w
    obtain ⟨ctx, root⟩ := c
    have h1 : ((newModule s (some (sampler env))).SharesAvailable ctx (some root) w).2
        = (sharesAvailable env ctx root w).2 := rfl
    simp only [runSharesAvailable, h1]
    refine le_trans ?_ (ih _)
    rw [sharesAvailable_samples]
    exact Nat.le_add_right _ _

/-- C6, as stated, fails from the 54th confirmed sample on: with `k = 54` the Module
returns the float64 `1`, which is not `1 - 2^-54`. -/
theorem ProbabilityOfAvailability_is_one_at_54 :
    ∃ r : Float64,
      ((newModule none (some (sampler demoEnv))).ProbabilityOfAvailability
          { emptyWorld with samples := 54 }).1 = Outcome.ret r ∧
      r.toRat? = some 1 ∧ r.toRat? ≠ some (1 - 1 / 2 ^ 54) := by
  refine ⟨probability 54, rfl, probability_value_large 54 (by decide), ?_⟩
  rw [probability_value_large 54 (by decide)]
  norm_num

/-- C6, amended: `ProbabilityOfAvailability` of the Module returns the float64 nearest to
`1 - 2^-k` for the cumulative confirmed-sample counter `k` and leaves the world
as it is.  The value is exactly `1 - 2^-k` for `k ≤ 53` and exactly `1` from
`k = 54` on; no float64 is nearer to `1 - 2^-k`; the value lies in `[0, 1]`; a
`SharesAvailable` call adds to `k` the number of sampled coordinates that
resolved; and over any run of `SharesAvailable` calls, successful or not, the
value does not decrease. -/
theorem ProbabilityOfAvailability_rounded (env : Env) (s : ShareService World) (w : World) :
    (newModule s (some (sampler env))).ProbabilityOfAvailability w
      = (Outcome.ret (Float64.ofRatio (2 ^ w.samples - 1) (2 ^ w.samples)), w) ∧
    (w.samples ≤ 53 →
      (Float64.ofRatio (2 ^ w.samples - 1) (2 ^ w.samples)).toRat?
        = some (1 - 1 / 2 ^ w.samples)) ∧
    (54 ≤ w.samples →
      (Float64.ofRatio (2 ^ w.samples - 1) (2 ^ w.samples)).toRat? = some 1) ∧
    (∃ v : ℚ, (Float64.ofRatio (2 ^ w.samples - 1) (2 ^ w.samples)).toRat? = some v ∧
      0 ≤ v ∧ v ≤ 1) ∧
    (∀ (y : Float64) (q : ℚ), y.toRat? = some q →
      ∃ v : ℚ, (Float64.ofRatio (2 ^ w.samples - 1) (2 ^ w.samples)).toRat? = some v ∧
        |v - (1 - 1 / 2 ^ w.samples)| ≤ |q - (1 - 1 / 2 ^ w.samples)|) ∧
    (∀ ctx root,
      ((newModule s (some (sampler env))).SharesAvailable ctx (some root) w).2.samples
        = w.samples +
          ((sampleOf env root w).filter fun rc =>
            (resolvesAt env ctx root w rc).isSome).length) ∧
    (∀ calls : List (Context × Root),
      ∃ (r1 r2 : Float64) (v1 v2 : ℚ),
        ((newModule s (some (sampler env))).ProbabilityOfAvailability w).1 = Outcome.ret r1 ∧
        ((newModule s (some (sampler env))).ProbabilityOfAvailability
          (runSharesAvailable (newModule s (some (sampler env))) calls w)).1
            = Outcome.ret r2 ∧
        r1.toRat? = some v1 ∧ r2.toRat? = some v2 ∧ v1 ≤ v2) := by
  refine ⟨rfl, probability_value_small w.samples, probability_value_large w.samples,
    probability_value_le_one w.samples, ?_, ?_, ?_⟩
  · intro y q hy
    exact probability_nearest w.samples y q hy
  · intro ctx root
    exact sharesAvailable_samples env ctx root w
  · intro calls
    obtain ⟨v1, v2, h1, h2, hle⟩ :=
      probability_value_mono (runSharesAvailable_samples env s calls w)
    exact ⟨_, _, v1, v2, rfl, rfl, h1, h2, hle⟩

/-- Witness of C6: with three confirmed samples the value is `1 - 2^-3`, and with sixty
it is `1`. -/
theorem ProbabilityOfAvailability_rounded_witness :
    (Float64.ofRatio (2 ^ 3 - 1) (2 ^ 3)).toRat? = some (1 - 1 / 2 ^ 3) ∧
    (Float64.ofRatio (2 ^ 60 - 1) (2 ^ 60)).toRat? = some 1 :=
  ⟨(ProbabilityOfAvailability_rounded demoEnv none { emptyWorld with samples := 3 }).2.1
      (by decide),
    (ProbabilityOfAvailability_rounded demoEnv none { emptyWorld with samples := 60 }).2.2.1
      (by decide)⟩

theorem localFirst_refl (w : World) : LocalFirst w w :=
  ⟨fun _ _ h => h, [], by simp, fun k hk => (by cases hk)⟩

theorem localFirst_trans {w v u : World} (h1 : LocalFirst w v) (h2 : LocalFirst v u) :
    LocalFirst w u := by
  obtain ⟨m1, a1, t1, f1⟩ := h1
  obtain ⟨m2, a2, t2, f2⟩ := h2
  refine ⟨fun k sh h => m2 k sh (m1 k sh h), a1 ++ a2, by rw [t2, t1, List.append_assoc], ?_⟩
  intro k hk
  rcases List.mem_append.1 hk with h | h
  · exact f1 k h
  · have hv := f2 k h
    cases hw : w.store.lookup k with
    | none => rfl
    | some sh =>
      rw [m1 k sh hw] at hv
      cases hv

theorem getShare_localFirst (env : Env) (ctx : Context) (root : Root) (row col : Int)
    (w : World) : LocalFirst w (getShare env ctx root row col w).2 := by
  cases h : w.store.lookup ⟨root, row, col⟩ with
  | some sh =>
    rw [getShare_hit env ctx root row col w sh h]
    refine ⟨fun _ _ h => h, _, rfl, ?_⟩
    intro k hk
    simp at hk
  | none =>
    rw [getShare_miss env ctx root row col w h]
    cases env.fetch ctx ⟨root, row, col⟩ with
    | error e =>
      refine ⟨fun _ _ h => h, _, rfl, ?_⟩
      intro k hk
      simp at hk
      rw [hk]
      exact h
    | ok sh =>
      simp only []
      cases env.verify root row col sh with
      | false =>
        refine ⟨fun _ _ h => h, _, rfl, ?_⟩
        intro k hk
        simp at hk
        rw [hk]
        exact h
      | true =>
        cases env.storeAccepts ⟨root, row, col⟩ sh with
        | false =>
          refine ⟨fun _ _ h => h, _, rfl, ?_⟩
          intro k hk
          simp at hk
          rw [hk]
          exact h
        | true =>
          refine ⟨?_, _, rfl, ?_⟩
          · intro k sh2 hk
            have hne : k ≠ ⟨root, row, col⟩ := by
              intro heq
              rw [heq, h] at hk
              cases hk
            have hb : (k == (⟨root, row, col⟩ : Key)) = false := by simpa using hne
            simp [List.lookup, hb, hk]
          · intro k hk
            simp at hk
            rw [hk]
            exact h

theorem andThen_localFirst {α β : Type} (m : Step α) (f : α → Step β)
    (hm : ∀ w, LocalFirst w (m w).2) (hf : ∀ a w, LocalFirst w (f a w).2) (w : World) :
    LocalFirst w (Step.andThen m f w).2 := by
  rw [andThen_eq]
  cases h : (m w).1 with
  | error e => exact hm w
  | ok a => exact localFirst_trans (hm w) (hf a _)

theorem getRow_localFirst (env : Env) (ctx : Context) (root : Root) (row : Nat) :
    ∀ (cols : List Nat) (w : World), LocalFirst w (getRow env ctx root row cols w).2 := by
  intro cols
  induction cols with
  | nil => intro w; exact localFirst_refl w
  | cons c cs ih =>
    intro w
    simp only [getRow]
    refine andThen_localFirst _ _ (getShare_localFirst env ctx root _ _) ?_ w
    intro sh w1
    exact andThen_localFirst _ _ ih (fun _ w2 => localFirst_refl w2) w1

theorem getRows_localFirst (env : Env) (ctx : Context) (root : Root) :
    ∀ (rows : List Nat) (w : World), LocalFirst w (getRows env ctx root rows w).2 := by
  intro rows
  induction rows with
  | nil => intro w; exact localFirst_refl w
  | cons r rs ih =>
    intro w
    simp only [getRows]
    refine andThen_localFirst _ _ (getRow_localFirst env ctx root r _) ?_ w
    intro sh w1
    exact andThen_localFirst _ _ ih (fun _ w2 => localFirst_refl w2) w1

theorem namespaceRows_localFirst (env : Env) (ctx : Context) (root : Root)
    (nID : NamespaceID) :
    ∀ (rest : List Commitment) (row : Nat) (w : World),
      LocalFirst w (namespaceRows env ctx root nID row rest w).2 := by
  intro rest
  induction rest with
  | nil => intro row w; exact localFirst_refl w
  | cons cm rest ih =>
    intro row w
    simp only [namespaceRows]
    split
    · refine andThen_localFirst _ _ (getRow_localFirst env ctx root row _) ?_ w
      intro sh w1
      exact andThen_localFirst _ _ (ih (row + 1)) (fun _ w2 => localFirst_refl w2) w1
    · exact ih (row + 1) w

theorem goResult_snd {α : Type} (zero : α) (r : Except Err α × World) :
    (goResult zero r).2 = r.2 := by
  rcases r with ⟨_ | _, _⟩ <;> rfl

/-- C5, as stated, fails when the Share Store rejects the put: in `brokenStoreEnv` the
coordinate `(0, 0)` lies in the square of `demoRoot`, its Share is not in the
store, `GetShare` of the Module fetches and returns it without an error, and the
store still does not hold it afterwards. -/
theorem GetShare_returns_unstored_share :
    ((0 : Int) ≤ 0 ∧ (0 : Int) < demoRoot.size) ∧
    emptyWorld.store.lookup ⟨demoRoot, 0, 0⟩ = none ∧
    ((newModule (some (shareService brokenStoreEnv)) none).GetShare demoContext
        (some demoRoot) 0 0 emptyWorld).1 = Outcome.ret ([1, 0, 0], none) ∧
    ((newModule (some (shareService brokenStoreEnv)) none).GetShare demoContext
        (some demoRoot) 0 0 emptyWorld).2.store.lookup ⟨demoRoot, 0, 0⟩ = none := by
  refine ⟨by decide, rfl, rfl, rfl⟩

/-- C5, amended: the Get methods of the Module are local-first.  For every Root and every
coordinate `(row, col)` with `0 ≤ row, col < N`: if the Share is in the Share
Store, `GetShare` returns it from the store, leaves the store as it was and makes
no collaborator call but the store lookup, so the Share Exchange is not called.
On a store miss the exchange is asked exactly once, after the lookup.  If the
exchange delivers a Share that verifies, a put of it into the store is made and
the Share is returned without an error: when the store accepts the put the Share
is in the store on return, and when the store fails the put the store is
unchanged and the Share is returned all the same.  If the exchange fails or the
Share does not verify, `GetShare` fails with `ShareUnavailable` and stores
nothing.  All three Get methods keep what the store held and ask the exchange
only for keys that were not in the store. -/
theorem GetShare_local_first (env : Env) (a : Availability World) (ctx : Context)
    (root : Root) (row col : Int) (w : World)
    (_hrow : 0 ≤ row ∧ row < root.size) (_hcol : 0 ≤ col ∧ col < root.size) :
    (∀ sh, w.store.lookup ⟨root, row, col⟩ = some sh →
      (newModule (some (shareService env)) a).GetShare ctx (some root) row col w
        = (Outcome.ret (sh, none),
            { w with trace := w.trace ++ [Event.storeGet ⟨root, row, col⟩ true] })) ∧
    (∀ sh, w.store.lookup ⟨root, row, col⟩ = none →
      env.fetch ctx ⟨root, row, col⟩ = Except.ok sh → env.verify root row col sh = true →
      env.storeAccepts ⟨root, row, col⟩ sh = true →
      (newModule (some (shareService env)) a).GetShare ctx (some root) row col w
        = (Outcome.ret (sh, none),
            { w with
              store := (⟨root, row, col⟩, sh) :: w.store
              trace := w.trace ++ [Event.storeGet ⟨root, row, col⟩ false,
                Event.exchangeFetch ⟨root, row, col⟩,
                Event.storePut ⟨root, row, col⟩ sh true] }) ∧
      ((newModule (some (shareService env)) a).GetShare ctx (some root) row col
        w).2.store.lookup ⟨root, row, col⟩ = some sh) ∧
    (∀ sh, w.store.lookup ⟨root, row, col⟩ = none →
      env.fetch ctx ⟨root, row, col⟩ = Except.ok sh → env.verify root row col sh = true →
      env.storeAccepts ⟨root, row, col⟩ sh = false →
      (newModule (some (shareService env)) a).GetShare ctx (some root) row col w
        = (Outcome.ret (sh, none),
            { w with
              trace := w.trace ++ [Event.storeGet ⟨root, row, col⟩ false,
                Event.exchangeFetch ⟨root, row, col⟩,
                Event.storePut ⟨root, row, col⟩ sh false] })) ∧
    (w.store.lookup ⟨root, row, col⟩ = none →
      ((∃ e, env.fetch ctx ⟨root, row, col⟩ = Except.error e) ∨
        ∃ sh, env.fetch ctx ⟨root, row, col⟩ = Except.ok sh ∧
          env.verify root row col sh = false) →
      (newModule (some (shareService env)) a).GetShare ctx (some root) row col w
        = (Outcome.ret ([], some Err.shareUnavailable),
            { w with
              trace := w.trace ++ [Event.storeGet ⟨root, row, col⟩ false,
                Event.exchangeFetch ⟨root, row, col⟩] })) ∧
    (LocalFirst w
        ((newModule (some (shareService env)) a).GetShare ctx (some root) row col w).2 ∧
      LocalFirst w ((newModule (some (shareService env)) a).GetShares ctx (some root) w).2 ∧
      ∀ nID, LocalFirst w
        ((newModule (some (shareService env)) a).GetSharesByNamespace ctx (some root) nID
          w).2) := by
  have hcall : (newModule (some (shareService env)) a).GetShare ctx (some root) row col w
      = goResult [] (getShare env ctx root row col w) := rfl
  have hshares : (newModule (some (shareService env)) a).GetShares ctx (some root) w
      = goResult [] (getShares env ctx root w) := rfl
  have hns : ∀ nID, (newModule (some (shareService env)) a).GetSharesByNamespace ctx
      (some root) nID w = goResult [] (getSharesByNamespace env ctx root nID w) :=
    fun _ => rfl
  refine ⟨?_, ?_, ?_, ?_, ?_⟩
  · intro sh h
    rw [hcall, getShare_hit env ctx root row col w sh h]
    rfl
  · intro sh h hf hv ha
    rw [hcall, getShare_miss env ctx root row col w h, hf]
    simp only [hv, ha, if_true, goResult]
    simp [List.lookup]
  · intro sh h hf hv ha
    rw [hcall, getShare_miss env ctx root row col w h, hf]
    simp only [hv, ha, if_true, Bool.false_eq_true, if_false, goResult]
  · intro h hfail
    rw [hcall, getShare_miss env ctx root row col w h]
    rcases hfail with ⟨e, he⟩ | ⟨sh, hf, hv⟩
    · rw [he]
      rfl
    · rw [hf]
      simp only [hv, Bool.false_eq_true, if_false, goResult]
  · refine ⟨?_, ?_, ?_⟩
    · rw [hcall, goResult_snd]
      exact getShare_localFirst env ctx root row col w
    · rw [hshares, goResult_snd]
      exact getRows_localFirst env ctx root _ w
    · intro nID
      rw [hns, goResult_snd]
      exact namespaceRows_localFirst env ctx root nID _ 0 w

/-- Witness of C5: a hit in `storedWorld` is served from the store; a miss in
`emptyWorld` is fetched, put into the store and found there; and with the store
of `brokenStoreEnv` the fetched Share is returned although the put failed. -/
theorem GetShare_local_first_witness :
    (newModule (some (shareService demoEnv)) none).GetShare demoContext (some demoRoot) 0 0
        storedWorld
      = (Outcome.ret ([5, 5], none),
          { storedWorld with
            trace := storedWorld.trace ++ [Event.storeGet ⟨demoRoot, 0, 0⟩ true] }) ∧
    ((newModule (some (shareService demoEnv)) none).GetShare demoContext (some demoRoot) 0 0
        emptyWorld).2.store.lookup ⟨demoRoot, 0, 0⟩ = some [1, 0, 0] ∧
    (newModule (some (shareService brokenStoreEnv)) none).GetShare demoContext
        (some demoRoot) 0 0 emptyWorld
      = (Outcome.ret ([1, 0, 0], none),
          { emptyWorld with
            trace := emptyWorld.trace ++ [Event.storeGet ⟨demoRoot, 0, 0⟩ false,
              Event.exchangeFetch ⟨demoRoot, 0, 0⟩,
              Event.storePut ⟨demoRoot, 0, 0⟩ [1, 0, 0] false] }) :=
  ⟨(GetShare_local_first demoEnv none demoContext demoRoot 0 0 storedWorld
        (by decide) (by decide)).1 [5, 5] rfl,
    ((GetShare_local_first demoEnv none demoContext demoRoot 0 0 emptyWorld
        (by decide) (by decide)).2.1 [1, 0, 0] rfl rfl rfl rfl).2,
    (GetShare_local_first brokenStoreEnv none demoContext demoRoot 0 0 emptyWorld
        (by decide) (by decide)).2.2.1 [1, 0, 0] rfl rfl rfl rfl⟩

end NodebuilderShare
